import Mathlib

/-!
Verification of `src/main/githooks.py` (ccdc-opensource/commit-hooks).

Python strings are modelled as `List Char`; fallible operations return
`Option`.  Functions keep the source names where Lean allows it.  Regular
expressions from the source are embedded as deterministic scanners; where
the Python regex engine could backtrack, a comment argues that on every
input the deterministic scanner agrees with the backtracking engine.
All character-class predicates (whitespace, word characters) model the
CPython behaviour; `lower`/word classes are ASCII-faithful, which is the
scope of every theorem that depends on them.
-/

namespace Githooks

/-- The set of characters CPython treats as whitespace, both for
`str.isspace` and for the regex class `\s` (Unicode mode). -/
def pyIsSpace (c : Char) : Bool :=
  c.toNat = 32 || (9 ≤ c.toNat && c.toNat ≤ 13) || (28 ≤ c.toNat && c.toNat ≤ 31) ||
  c.toNat = 133 || c.toNat = 160 || c.toNat = 0x1680 ||
  (0x2000 ≤ c.toNat && c.toNat ≤ 0x200a) ||
  c.toNat = 0x2028 || c.toNat = 0x2029 || c.toNat = 0x202f ||
  c.toNat = 0x205f || c.toNat = 0x3000

/-- Python regex word character (`\w`), restricted to ASCII.  Theorems
using it carry an ASCII hypothesis where Unicode would differ. -/
def pyWordChar (c : Char) : Bool := c.isAlphanum || c = '_'

/-- ASCII `str.lower` on one character. -/
def toLowerChar (c : Char) : Char := c.toLower

/-- Python substring test `needle in hay`. -/
def containsSub (needle hay : List Char) : Bool :=
  (List.range (hay.length + 1)).any fun i => (hay.drop i).take needle.length == needle

/-- Python sequence indexing `l[i]`: negative indices count from the end,
out-of-range indices raise `IndexError` (modelled as `none`). -/
def pyGet {α : Type} (l : List α) (i : Int) : Option α :=
  if 0 ≤ i then l.get? i.toNat
  else if i.natAbs ≤ l.length then l.get? (l.length - i.natAbs) else none

/-- Python item assignment `l[i] = v` for an index already known to be
valid (in the source the assignment only happens after a successful read
of the same index). -/
def pySet {α : Type} (l : List α) (i : Int) (v : α) : List α :=
  if 0 ≤ i then l.set i.toNat v
  else l.set (l.length - i.natAbs) v

/-- `int()` on a decimal digit string (the only shape the source feeds it). -/
def strToNat (s : List Char) : Nat :=
  s.foldl (fun a c => 10 * a + (c.toNat - 48)) 0

/-- Decimal digit character for `d < 10`. -/
def digitChar (d : Nat) : Char :=
  match d with
  | 0 => '0' | 1 => '1' | 2 => '2' | 3 => '3' | 4 => '4'
  | 5 => '5' | 6 => '6' | 7 => '7' | 8 => '8' | _ => '9'

/-- Decimal representation with enough fuel (structural recursion keeps
it computable inside kernel reduction). -/
def natReprAux : Nat → Nat → List Char
  | 0, _ => []
  | fuel + 1, n =>
    if n < 10 then [digitChar n]
    else natReprAux fuel (n / 10) ++ [digitChar (n % 10)]

/-- Python `str(n)` for a natural number. -/
def natRepr (n : Nat) : List Char := natReprAux (n + 1) n

/-- One-character CPython line boundaries (besides the `\r\n` pair):
`\n \v \f \r \x1c \x1d \x1e \x85    `. -/
def isLineBoundary (c : Char) : Bool :=
  c.toNat = 10 || c.toNat = 11 || c.toNat = 12 || c.toNat = 13 ||
  (28 ≤ c.toNat && c.toNat ≤ 30) || c.toNat = 133 ||
  c.toNat = 0x2028 || c.toNat = 0x2029

/-- `str.splitlines(True)`: split on CPython line boundaries, keeping each
terminator with its line; `\r\n` counts as a single boundary. -/
def pySplitlinesKeep : List Char → List Char → List (List Char)
  | [], acc => if acc.isEmpty then [] else [acc.reverse]
  | '\r' :: '\n' :: rest2, acc =>
    (acc.reverse ++ ['\r', '\n']) :: pySplitlinesKeep rest2 []
  | c :: rest, acc =>
    if isLineBoundary c then (acc.reverse ++ [c]) :: pySplitlinesKeep rest []
    else pySplitlinesKeep rest (c :: acc)

/-- `data.splitlines(True)` as used throughout the source. -/
def splitlinesKeep (s : List Char) : List (List Char) := pySplitlinesKeep s []

/-!
### parse_diff_header (githooks.py lines 196-215)

The source matches the pattern `@@` `\s` `[^\s]+` `\s` `\+?` `(\d+)`
`(,(\d+))?` `\s` `@@` `.*` anchored at the start of the header line.  The
scanner below is deterministic; it agrees with the backtracking regex
engine on every input because each greedy or optional piece is followed by
a piece that cannot match any character the previous piece gave up, so
backtracking never finds an alternative parse.
-/

/-- The closing `@@` (followed by `.*`, which always matches). -/
def hunkClose (r6 : List Char) : Bool :=
  match r6 with
  | '@' :: '@' :: _ => true
  | _ => false

/-- The optional `(,(\d+))?` group: returns group 3 and the remainder.
When a comma is present but not followed by a digit the group fails
without consuming anything; the following `\s` then fails on the comma,
exactly as the backtracking engine does. -/
def hunkOpt (r4 : List Char) : Option Nat × List Char :=
  match r4 with
  | ',' :: r4t =>
    let ds2 := r4t.takeWhile Char.isDigit
    if ds2.isEmpty then (none, r4) else (some (strToNat ds2), r4t.drop ds2.length)
  | _ => (none, r4)

/-- `(\d+)(,(\d+))?\s@@.*` starting at `r3`. -/
def hunkDigits (r3 : List Char) : Option (Nat × Option Nat) :=
  let ds := r3.takeWhile Char.isDigit
  if ds.isEmpty then none else
  let gr := hunkOpt (r3.drop ds.length)
  match gr.2 with
  | c3 :: r6 =>
    if pyIsSpace c3 then
      if hunkClose r6 then some (strToNat ds, gr.1) else none
    else none
  | [] => none

/-- The optional plus sign `\+?` (when the next character is `+` and no
digit follows it, both the consuming and the skipping alternative fail,
so consuming greedily loses nothing). -/
def hunkPlus (r2 : List Char) : List Char :=
  match r2 with
  | '+' :: t => t
  | _ => r2

/-- Result of matching the hunk-header pattern: `newStart` (group 1) and,
when the `,count` part is present, `newCount` (group 3). -/
def hunkMatch (s : List Char) : Option (Nat × Option Nat) :=
  match s with
  | '@' :: '@' :: c :: r1 =>
    if pyIsSpace c then
      let w := r1.takeWhile fun x => !(pyIsSpace x)
      if w.isEmpty then none else
      match r1.drop w.length with
      | c2 :: r2 => if pyIsSpace c2 then hunkDigits (hunkPlus r2) else none
      | [] => none
    else none
  | _ => none

/-- `parse_diff_header`: turn one `git diff --unified=0` hunk header into
the string describing the changed line numbers (a single number or a
`start-end` range).  `none` models the `AttributeError` the source raises
when the pattern does not match. -/
def parse_diff_header (s : List Char) : Option (List Char) :=
  (hunkMatch s).map fun p =>
    match p.2 with
    | some num =>
      if 0 < num then natRepr p.1 ++ '-' :: natRepr (p.1 + num - 1) else natRepr p.1
    | none => natRepr p.1

/-!
### yield_changed_lines (githooks.py lines 263-271)
-/

/-- Expand one element of a changed-lines list, either a single number or
an `a-b` range, to `range(start, end+1)`. -/
def expandRange (r : List Char) : List Nat :=
  if r.contains '-' then
    let a := strToNat (r.takeWhile fun c => !(c == '-'))
    let b := strToNat ((r.dropWhile fun c => !(c == '-')).tail)
    List.range' a (b + 1 - a)
  else
    List.range' (strToNat r) 1

/-- `yield_changed_lines`: individual line numbers from the list returned
by `get_changed_lines`. -/
def yield_changed_lines (rs : List (List Char)) : List Nat :=
  rs.flatMap expandRange

/-!
### trim_trailing_whitespace (githooks.py lines 371-374)

The source substitutes the pattern `\s*?` `(\r?\n|$)` by group 1.  At a
given position the lazy `\s*?` stops at the first reachable terminator;
it can never step over a `\n` (every `\n` starts a terminator), so a
match is a maximal run of non-terminator whitespace followed by `\n`,
`\r\n` or the end of the string.
-/

/-- Try the pattern `\s*?(\r?\n|$)` at the head of `s`.  Returns the
remainder after the match together with the text of group 1 (the kept
terminator).  Mirrors the lazy engine: terminator first, then consume one
whitespace character and retry. -/
def lazyMatch (s : List Char) : Option (List Char × List Char) :=
  match s with
  | [] => some ([], [])
  | c :: rest =>
    if c = '\n' then some (rest, ['\n'])
    else if c = '\r' ∧ rest.head? = some '\n' then some (rest.tail, ['\r', '\n'])
    else if pyIsSpace c then lazyMatch rest
    else none

/-- `re.sub` with the trailing-whitespace pattern: scan left to right,
replace each match by its group 1, continue after the match.  The fuel
argument only bounds the recursion (every step consumes at least one
character, so `s.length` fuel is always enough); it keeps the function
structurally recursive and hence kernel-computable. -/
def subScanAux : Nat → List Char → List Char
  | 0, s => s
  | fuel + 1, s =>
    match s with
    | [] => []
    | c :: rest =>
      match lazyMatch (c :: rest) with
      | some (a, g) => g ++ subScanAux fuel a
      | none => c :: subScanAux fuel rest

/-- The scan with enough fuel. -/
def subScan (s : List Char) : List Char := subScanAux s.length s

/-- `trim_trailing_whitespace`: remove the white space that stands between
the last non-blank character of each line and its terminator. -/
def trim_trailing_whitespace (s : List Char) : List Char := subScan s

/-- Split a string into lines, each keeping its terminator: a line ends at
`\n`, a `\r` immediately followed by `\n` belongs to the terminator (so
`\r\n` stays one unit), and a final segment without terminator is its own
line.  Claim-side definition, modelled from claim C3's words, to be
compared with the code's substitution. -/
def termSplit : List Char → List (List Char)
  | [] => []
  | c :: rest =>
    if c = '\n' then ['\n'] :: termSplit rest
    else if c = '\r' ∧ rest.head? = some '\n' then ['\r', '\n'] :: termSplit rest.tail
    else
      match termSplit rest with
      | [] => [[c]]
      | l :: ls => (c :: l) :: ls
termination_by s => s.length
decreasing_by
all_goals simp only [List.length_cons, List.length_tail]
all_goals omega

/-- Claim C3's transformation of one line: keep the terminator (`\n` or
`\r\n`) exactly as it is, and delete the whitespace standing immediately
before it — a whitespace character is deleted exactly when everything
after it reduces to the bare terminator (or to nothing, for an
unterminated final line); every other character, interior whitespace
included, is kept.  Claim-side definition, modelled from the claim's
words. -/
def stripLine : List Char → List Char
  | [] => []
  | c :: rest =>
    if (c = '\n' ∧ rest = []) ∨ (c = '\r' ∧ rest = ['\n']) then c :: rest
    else if pyIsSpace c then
      if stripLine rest = ['\n'] ∨ stripLine rest = ['\r', '\n'] ∨ stripLine rest = [] then
        stripLine rest
      else c :: stripLine rest
    else c :: stripLine rest

/-- Terminator produced when a whitespace-only line prefix `a` stands
before a line feed: `\r\n` when `a` ends in `\r`, else `\n` alone. -/
def lineTerm (a : List Char) : List Char :=
  if a.getLast? = some '\r' then ['\r', '\n'] else ['\n']

/-!
### Line-scoped checkers (githooks.py lines 327-350 and 400-456)

`get_file_content_as_binary` and `get_changed_lines` are collaborators
doing I/O; they enter here as parameters: `data` is the file content
(`none` when the file is not UTF-8 decodable) and `changed` the list of
range strings `get_changed_lines` returned for a modified file.
-/

/-- The phrase looked for by the do-not-merge check. -/
def dnmPhrase : List Char := "do not merge".data

/-- Line-number list used by both checkers: the whole file for a new
file, the changed lines otherwise (githooks.py lines 335-338, 421-424). -/
def lineNums (lines : List (List Char)) (changed : List (List Char)) (new_file : Bool) :
    List (List Char) :=
  if new_file then [natRepr 1 ++ '-' :: natRepr lines.length] else changed

/-- The loop of `check_do_not_merge_in_file` (lines 340-348): look each
line number up with Python indexing, skip it on `IndexError`, return 1 on
the first line containing the phrase. -/
def dnmLoop (lines : List (List Char)) : List Nat → Nat
  | [] => 0
  | n :: ns =>
    match pyGet lines ((n : Int) - 1) with
    | none => dnmLoop lines ns
    | some l => if containsSub dnmPhrase (l.map toLowerChar) then 1 else dnmLoop lines ns

/-- `check_do_not_merge_in_file`. -/
def check_do_not_merge_in_file (data : Option (List Char)) (changed : List (List Char))
    (new_file : Bool) : Nat :=
  match data with
  | none => 0
  | some d =>
    let lines := splitlinesKeep d
    dnmLoop lines (yield_changed_lines (lineNums lines changed new_file))

/-- One file as seen by the per-file checks: its (decoded) content and
the changed-line ranges `get_changed_lines` would report for it. -/
structure FileIn where
  data : Option (List Char)
  changed : List (List Char)

/-- `check_do_not_merge` (lines 353-368): sum the per-file results. -/
def check_do_not_merge (files : List FileIn) (new_files : Bool) : Nat :=
  files.foldl (fun acc f => acc + check_do_not_merge_in_file f.data f.changed new_files) 0

/-- Observable outcome of `trim_trailing_whitespace_in_file`: the return
value, the lines of the file after the call (rewritten only when
`modified_file` was set), whether the file was rewritten, the flagged
line numbers of the dry run, and whether the file was staged again. -/
structure TrimResult where
  retval : Nat
  outLines : List (List Char)
  modified_file : Bool
  modified_lines : List (List Char)
  staged : Bool

/-- The loop of `trim_trailing_whitespace_in_file` (lines 429-442),
returning the final `lines`, `modified_file` and `modified_lines`. -/
def trimLoop (dry : Bool) : List Nat → List (List Char) →
    List (List Char) × Bool × List (List Char)
  | [], lines => (lines, false, [])
  | n :: ns, lines =>
    match pyGet lines ((n : Int) - 1) with
    | none => trimLoop dry ns lines
    | some before =>
      let after := trim_trailing_whitespace before
      if before = after then trimLoop dry ns lines
      else if dry then
        let r := trimLoop dry ns lines
        (r.1, r.2.1, natRepr n :: r.2.2)
      else
        let r := trimLoop dry ns (pySet lines ((n : Int) - 1) after)
        (r.1, true, r.2.2)

/-- `trim_trailing_whitespace_in_file`. -/
def trim_trailing_whitespace_in_file (data : Option (List Char))
    (changed : List (List Char)) (new_file dry_run add_to_git_index : Bool) : TrimResult :=
  match data with
  | none => ⟨0, [], false, [], false⟩
  | some d =>
    let lines := splitlinesKeep d
    let r := trimLoop dry_run (yield_changed_lines (lineNums lines changed new_file)) lines
    ⟨if r.2.2.isEmpty then 0 else 1,
     if r.2.1 then r.1 else lines,
     r.2.1, r.2.2,
     r.2.1 && add_to_git_index⟩

/-- `remove_trailing_white_space` (lines 491-501): sum the per-file
results, always passing `add_to_git_index=True`. -/
def remove_trailing_white_space (files : List FileIn) (new_files dry_run : Bool) : Nat :=
  files.foldl
    (fun acc f =>
      acc + (trim_trailing_whitespace_in_file f.data f.changed new_files dry_run true).retval)
    0

/-!
### check_eol (githooks.py lines 291-324) and check_username (603-623)
-/

/-- The file loop of `check_eol`: skip unreadable and binary files,
return 1 at the first file containing CRLF. -/
def eolLoop : List (Option (List Char)) → Nat
  | [] => 0
  | none :: rest => eolLoop rest
  | some d :: rest =>
    if d.contains (Char.ofNat 0) then eolLoop rest
    else if containsSub ['\r', '\n'] d then 1 else eolLoop rest

/-- `check_eol`, with the platform test and the `core.autocrlf` setting
as parameters. -/
def check_eol (is_windows : Bool) (autocrlf : Option (List Char))
    (files : List (Option (List Char))) : Nat :=
  if is_windows then
    if autocrlf = some "true".data then 0 else eolLoop files
  else
    if autocrlf = some "input".data then 0 else eolLoop files

/-- `check_username`, with the author name as parameter: reject when the
regex `root|buildman|[^a-zA-Z ]` finds a match. -/
def check_username (user : List Char) : Nat :=
  if containsSub "root".data user || containsSub "buildman".data user ||
      user.any (fun c => !(c.isAlpha || c = ' ')) then 1
  else 0

/-- The merge branch of `commit_hook` (githooks.py lines 905-926): the
hook's return value, which the calling hook script uses as the process
exit code. -/
def commit_hook_merge (user : List Char) (filesM filesA : List FileIn) : Nat :=
  check_username user + check_do_not_merge filesM false + check_do_not_merge filesA true

/-!
### check_filename (githooks.py lines 504-553)

`pathlib.PurePosixPath` name/stem are modelled directly: the name is the
last slash-separated component after dropping empty and `.` components,
and the stem cuts the suffix only when the last dot is neither the first
nor the last character of the name.
-/

/-- `Path(p).name`. -/
def pathName (p : List Char) : List Char :=
  ((p.splitOn '/').filter fun q => !q.isEmpty && q ≠ ['.']).getLastD []

/-- `Path(name).stem` for a path that is a bare name. -/
def pathStem (name : List Char) : List Char :=
  match name.reverse.findIdx? (· == '.') with
  | some j =>
    let i := name.length - 1 - j
    if 0 < i ∧ i < name.length - 1 then name.take i else name
  | none => name

/-- Characters a Windows filename must not contain. -/
def ILLEGAL_CHARS : List Char := "\\/:*?\"<>|".data

/-- Names reserved on Windows (lowercase, exactly as in the source). -/
def DEVICE_NAMES : List (List Char) :=
  ["con", "prn", "aux", "nul",
   "com1", "com2", "com3", "com4", "com5", "com6", "com7", "com8", "com9",
   "lpt1", "lpt2", "lpt3", "lpt4", "lpt5", "lpt6", "lpt7", "lpt8", "lpt9"].map String.data

/-- `check_filename`.  `none` models the `IndexError` of `filepath[-1]`
on an empty path. -/
def check_filename (filepath : List Char) : Option Nat :=
  let filename := pathName filepath
  if filename.any (fun ch => ILLEGAL_CHARS.contains ch || ch.toNat ≤ 31) then some 1
  else if DEVICE_NAMES.contains (pathStem filename) then some 1
  else
    match pyGet filepath (-1) with
    | none => none
    | some lastc =>
      if lastc = '.' || pyIsSpace lastc then some 1
      else if filepath.any (fun c => 127 < c.toNat) then some 1
      else if 208 < filepath.length then some 1
      else some 0

/-- The filename legality rule taken from the spec's words, for
comparison with `check_filename`: `caseFold` selects whether the reserved
device names are compared case-insensitively, as the spec asserts, or
exactly, as the source does. -/
def spec_filename_reject (caseFold : Bool) (p : List Char) : Bool :=
  let name := pathName p
  name.any (fun ch => ILLEGAL_CHARS.contains ch || ch.toNat ≤ 31) ||
  DEVICE_NAMES.contains (if caseFold then (pathStem name).map toLowerChar else pathStem name) ||
  (match p.getLast? with
   | some c => c = '.' || pyIsSpace c
   | none => false) ||
  p.any (fun c => 127 < c.toNat) ||
  decide (208 < p.length)

/-!
### jira_id_pattern (githooks.py line 862)

`re.search` with `\b[A-Z]{2,8}-[0-9]{1,5}\b`.  The scanner tries every
start position; at one position the greedy pieces need no backtracking:
the run of `[A-Z]` must be followed by `-` (not an uppercase letter) and
the run of `[0-9]` must be followed by a non-word character (so no
shorter run, which a digit would follow, can succeed).  `\w` is modelled
over ASCII.
-/

/-- Word-boundary test against the neighbouring character (`none` at the
ends of the string); the characters inside the token are all word
characters, so the boundary holds exactly when the neighbour is not one. -/
def boundaryOK : Option Char → Bool
  | none => true
  | some c => !(pyWordChar c)

/-- The character standing just before the match position: the last of
the prefix already scanned, or the character before the whole scan. -/
def lastOr (prev : Option Char) (pre : List Char) : Option Char :=
  match pre.getLast? with
  | some c => some c
  | none => prev

/-- Match `[A-Z]{2,8}-[0-9]{1,5}\b` at the head of `s`, with `prev` the
character just before `s` (for the leading `\b`). -/
def jiraMatchAt (prev : Option Char) (s : List Char) : Bool :=
  boundaryOK prev &&
  (let u := s.takeWhile Char.isUpper
   decide (2 ≤ u.length) && decide (u.length ≤ 8) &&
   match s.drop u.length with
   | c :: r2 =>
     c = '-' &&
     (let e := r2.takeWhile Char.isDigit
      decide (1 ≤ e.length) && decide (e.length ≤ 5) &&
      boundaryOK (r2.drop e.length).head?)
   | [] => false)

/-- The position scan of `re.search`. -/
def jiraSearchAux : Option Char → List Char → Bool
  | _, [] => false
  | prev, c :: rest => jiraMatchAt prev (c :: rest) || jiraSearchAux (some c) rest

/-- `jira_id_pattern.search(message) is not None`. -/
def jira_id_pattern_search (message : List Char) : Bool :=
  jiraSearchAux none message

/-- A Jira ticket-ID token: 2-8 uppercase letters, a hyphen, 1-5 digits. -/
def JiraToken (t : List Char) : Prop :=
  ∃ u e, t = u ++ '-' :: e ∧ (∀ c ∈ u, c.isUpper = true) ∧ 2 ≤ u.length ∧ u.length ≤ 8 ∧
    (∀ c ∈ e, c.isDigit = true) ∧ 1 ≤ e.length ∧ e.length ≤ 5

/-- The message contains a Jira token bounded on both sides by non-word
characters (or the ends of the message). -/
def ContainsJiraToken (m : List Char) : Prop :=
  ∃ pre t suf, m = pre ++ t ++ suf ∧ JiraToken t ∧
    boundaryOK pre.getLast? = true ∧ boundaryOK suf.head? = true

/-- The Jira-token condition taken from the spec's words for claim C7:
the token must be bounded on both sides by characters that are not
alphanumeric (so, unlike the source's `\b`, an underscore counts as a
valid bound). -/
def spec_jira_cond (m : List Char) : Bool :=
  (List.range m.length).any fun i =>
    (match (m.take i).getLast? with
     | none => true
     | some c => !c.isAlphanum) &&
    (let s := m.drop i
     let u := s.takeWhile Char.isUpper
     decide (2 ≤ u.length) && decide (u.length ≤ 8) &&
     match s.drop u.length with
     | c :: r2 =>
       c = '-' &&
       (let e := r2.takeWhile Char.isDigit
        decide (1 ≤ e.length) && decide (e.length ≤ 5) &&
        match (r2.drop e.length).head? with
        | none => true
        | some c2 => !c2.isAlphanum)
     | [] => false)

/-!
### check_commit_msg (githooks.py lines 828-862)

The two auto-generated-merge templates are `re.match` (prefix) patterns.
Their lazy and optional pieces are embedded as bounded existentials over
split positions, which is exactly the set of parses a backtracking engine
explores, so the boolean result agrees with `re.match` on every input.
-/

/-- `l` starts with `pre`. -/
def startsWithL (pre s : List Char) : Bool := s.take pre.length == pre

/-- The apostrophe character (`'`). -/
def squote : Char := Char.ofNat 39

/-- Tail `" into .+"` shared by the branch-merge template. -/
def intoTail (t : List Char) : Bool :=
  startsWithL " into ".data t &&
  match (t.drop 6).head? with
  | some c => c ≠ '\n'
  | none => false

/-- After the closing quote of the branch name: the optional
`( of [^\s]+)?` group followed by `" into .+"`. -/
def afterQuote (t : List Char) : Bool :=
  intoTail t ||
  (startsWithL " of ".data t &&
   (List.range (t.length + 1)).any fun j =>
     decide (1 ≤ j) && ((t.drop 4).take j).all (fun c => !(pyIsSpace c)) &&
     intoTail (t.drop (4 + j)))

/-- `^Merge ((remote-tracking )?branch|commit) '.+?'( of [^\s]+)? into .+`
as a prefix match. -/
def mergeBranchTemplate (m : List Char) : Bool :=
  startsWithL "Merge ".data m &&
  (["remote-tracking branch".data, "branch".data, "commit".data].any fun alt =>
    let r := m.drop 6
    startsWithL alt r &&
    (let r2 := r.drop alt.length
     startsWithL [' ', squote] r2 &&
     (let r3 := r2.drop 2
      (List.range (r3.length + 1)).any fun i =>
        decide (1 ≤ i) && (r3.take i).all (fun c => c ≠ '\n') &&
        (r3.drop i).head? = some squote &&
        afterQuote (r3.drop (i + 1)))))

/-- `^Merge pull request #.+ from .+` as a prefix match. -/
def mergePullTemplate (m : List Char) : Bool :=
  startsWithL "Merge pull request #".data m &&
  (let r := m.drop 20
   (List.range (r.length + 1)).any fun i =>
     decide (1 ≤ i) && (r.take i).all (fun c => c ≠ '\n') &&
     startsWithL " from ".data (r.drop i) &&
     match (r.drop (i + 6)).head? with
     | some c => c ≠ '\n'
     | none => false)

/-- Marker constants (githooks.py lines 25-27). -/
def LARGE_FILE_MARKER : List Char := "LARGE_FILE".data

/-- The opt-out marker for commits without a Jira ticket. -/
def NO_JIRA_MARKER : List Char := "NO_JIRA".data

/-- The file-size loop of `check_commit_msg` (lines 851-859).  Sizes are
in bytes; `size / 1024**2 > 99.0` is exact for any realistic size (the
division is by a power of two), so it is modelled as `size > 99 * 2^20`,
and likewise for the soft 5 MB threshold. -/
def sizeLoop (marker : Bool) : List Nat → Nat
  | [] => 0
  | sz :: rest =>
    if 99 * 1048576 < sz then 1
    else if 5 * 1048576 < sz then
      if marker then sizeLoop marker rest else 1
    else sizeLoop marker rest

/-- `check_commit_msg`, with the staged files given by their sizes. -/
def check_commit_msg (message : List Char) (fileSizes : List Nat) : Nat :=
  if mergeBranchTemplate message then 0
  else if mergePullTemplate message then 0
  else if !containsSub NO_JIRA_MARKER message && !jira_id_pattern_search message then 1
  else sizeLoop (containsSub LARGE_FILE_MARKER message) fileSizes

/-- The optional `,count` part of the `+` side of a hunk header. -/
def optComma : Option (List Char) → List Char
  | some d => ',' :: d
  | none => []

/-- The changed-lines string claim C1 expects `parse_diff_header` to
produce for new-start `n1` and optional new-count `n2`. -/
def rangeStr (n1 : Nat) : Option Nat → List Char
  | none => natRepr n1
  | some n2 => if 0 < n2 then natRepr n1 ++ '-' :: natRepr (n1 + n2 - 1) else natRepr n1

/-- The set of line numbers claim C1 expects: `newStart..newStart+newCount-1`
when the count is present and positive, the single line `newStart`
otherwise. -/
def rangeSet (n1 : Nat) : Option Nat → List Nat
  | none => [n1]
  | some n2 => if 0 < n2 then List.range' n1 n2 else [n1]

/-- Normal form of the trailing-whitespace substitution: at no position
does a whitespace character that is not itself the start of a terminator
reach a terminator through whitespace (so the only matches left are
terminators replaced by themselves). -/
def cleanB : List Char → Bool
  | [] => true
  | c :: t =>
    (!(pyIsSpace c) || c = '\n' || (c = '\r' && t.head? = some '\n') ||
      (lazyMatch t).isNone) && cleanB t

/-- A file with CRLF in its content, as the spec counts line-ending
violations per file (claim C4). -/
def eolViolation (f : Option (List Char)) : Bool :=
  match f with
  | none => false
  | some d => !(d.contains (Char.ofNat 0)) && containsSub ['\r', '\n'] d

/-!
## Helper lemmas
-/

theorem lazyMatch_length_lt :
    ∀ s a g, s ≠ [] → lazyMatch s = some (a, g) → a.length < s.length := by
  intro s
  induction s with
  | nil => intro a g h; exact absurd rfl h
  | cons c rest ih =>
    intro a g _ hm
    simp only [lazyMatch] at hm
    split at hm
    · cases hm; simp
    · split at hm
      · rename_i hc
        cases hm
        rcases rest with _ | ⟨d, rest2⟩
        · simp at hc
        · simp only [List.head?] at hc
          simp [List.tail]
          omega
      · split at hm
        · rcases rest with _ | ⟨d, rest2⟩
          · simp only [lazyMatch] at hm
            cases hm
            simp
          · have := ih a g (by simp) hm
            simp at this ⊢
            omega
        · exact absurd hm (by simp)

theorem subScanAux_nil (fuel : Nat) : subScanAux fuel [] = [] := by
  cases fuel <;> rfl

theorem subScanAux_congr : ∀ f1 f2 (s : List Char), s.length ≤ f1 → s.length ≤ f2 →
    subScanAux f1 s = subScanAux f2 s := by
  intro f1
  induction f1 with
  | zero =>
    intro f2 s h1 _
    have : s = [] := by
      cases s
      · rfl
      · simp at h1
    subst this
    rw [subScanAux_nil, subScanAux_nil]
  | succ f1 ih =>
    intro f2 s h1 h2
    cases s with
    | nil => rw [subScanAux_nil, subScanAux_nil]
    | cons c rest =>
      cases f2 with
      | zero => simp at h2
      | succ f2 =>
        show (match lazyMatch (c :: rest) with
          | some (a, g) => g ++ subScanAux f1 a
          | none => c :: subScanAux f1 rest) =
          (match lazyMatch (c :: rest) with
          | some (a, g) => g ++ subScanAux f2 a
          | none => c :: subScanAux f2 rest)
        cases hm : lazyMatch (c :: rest) with
        | some p =>
          have hlt := lazyMatch_length_lt (c :: rest) p.1 p.2 (by simp) (by simpa using hm)
          have hl1 : p.1.length ≤ rest.length := by simp at hlt; omega
          have hf1 : rest.length ≤ f1 := by simp at h1; omega
          have hf2 : rest.length ≤ f2 := by simp at h2; omega
          simp only []
          rw [ih f2 p.1 (by omega) (by omega)]
        | none =>
          have hf1 : rest.length ≤ f1 := by simp at h1; omega
          have hf2 : rest.length ≤ f2 := by simp at h2; omega
          simp only []
          rw [ih f2 rest hf1 hf2]

/-- The recursion equation of the scan. -/
theorem subScan_cons (c : Char) (rest : List Char) :
    subScan (c :: rest) =
      match lazyMatch (c :: rest) with
      | some (a, g) => g ++ subScan a
      | none => c :: subScan rest := by
  show subScanAux (rest.length + 1) (c :: rest) = _
  rw [subScanAux]
  cases hm : lazyMatch (c :: rest) with
  | some p =>
    have hlt := lazyMatch_length_lt (c :: rest) p.1 p.2 (by simp) (by simpa using hm)
    have hl1 : p.1.length ≤ rest.length := by simp at hlt; omega
    simp only []
    rw [subScanAux_congr rest.length p.1.length p.1 hl1 le_rfl]
    rfl
  | none => rfl


theorem takeWhile_append_cons (p : Char → Bool) (xs : List Char) (y : Char) (ys : List Char)
    (hx : ∀ c ∈ xs, p c = true) (hy : p y = false) :
    (xs ++ y :: ys).takeWhile p = xs := by
  induction xs with
  | nil => simp [List.takeWhile_cons, hy]
  | cons a t ih =>
    simp only [List.cons_append, List.takeWhile_cons, hx a (by simp), if_true]
    rw [ih fun c hc => hx c (by simp [hc])]

theorem dropWhile_append_cons (p : Char → Bool) (xs : List Char) (y : Char) (ys : List Char)
    (hx : ∀ c ∈ xs, p c = true) (hy : p y = false) :
    (xs ++ y :: ys).dropWhile p = y :: ys := by
  induction xs with
  | nil => simp [List.dropWhile_cons, hy]
  | cons a t ih =>
    simp only [List.cons_append, List.dropWhile_cons, hx a (by simp), if_true]
    exact ih fun c hc => hx c (by simp [hc])

theorem contains_eq_false_of_forall_ne {l : List Char} {a : Char}
    (h : ∀ c ∈ l, c ≠ a) : l.contains a = false := by
  induction l with
  | nil => rfl
  | cons b t ih =>
    have hb : (a == b) = false :=
      beq_eq_false_iff_ne.mpr fun e => h b (by simp) e.symm
    simp only [List.contains_cons, hb, Bool.false_or]
    exact ih fun c hc => h c (by simp [hc])

theorem strToNat_append_digit (a : List Char) (c : Char) :
    strToNat (a ++ [c]) = 10 * strToNat a + (c.toNat - 48) := by
  simp [strToNat, List.foldl_append]

theorem digitChar_toNat {d : Nat} (h : d < 10) : (digitChar d).toNat = 48 + d := by
  interval_cases d <;> rfl

theorem digitChar_isDigit {d : Nat} (h : d < 10) : (digitChar d).isDigit = true := by
  interval_cases d <;> rfl

theorem natReprAux_all_digit (fuel n : Nat) : ∀ c ∈ natReprAux fuel n, c.isDigit = true := by
  induction fuel generalizing n with
  | zero => simp [natReprAux]
  | succ fuel ih =>
    intro c hc
    rw [natReprAux] at hc
    split at hc
    · rename_i h
      simp at hc
      subst hc
      exact digitChar_isDigit h
    · rcases List.mem_append.1 hc with h1 | h1
      · exact ih (n / 10) c h1
      · simp at h1
        subst h1
        exact digitChar_isDigit (Nat.mod_lt _ (by omega))

theorem natRepr_all_digit (n : Nat) : ∀ c ∈ natRepr n, c.isDigit = true :=
  natReprAux_all_digit (n + 1) n

theorem strToNat_natReprAux (fuel n : Nat) (h : n < fuel) :
    strToNat (natReprAux fuel n) = n := by
  induction fuel generalizing n with
  | zero => omega
  | succ fuel ih =>
    rw [natReprAux]
    split
    · rename_i h10
      simp [strToNat, List.foldl, digitChar_toNat h10]
    · rename_i h10
      rw [strToNat_append_digit, ih (n / 10) (by omega),
        digitChar_toNat (Nat.mod_lt _ (by omega))]
      omega

theorem strToNat_natRepr (n : Nat) : strToNat (natRepr n) = n :=
  strToNat_natReprAux (n + 1) n (by omega)

theorem natRepr_not_dash (n : Nat) : ∀ c ∈ natRepr n, c ≠ '-' := by
  intro c hc he
  have := natRepr_all_digit n c hc
  subst he
  simp [Char.isDigit] at this

theorem natRepr_ne_nil (n : Nat) : natRepr n ≠ [] := by
  rw [natRepr, natReprAux]
  split <;> simp

/-- `expandRange` on a plain decimal string. -/
theorem expandRange_single (n : Nat) : expandRange (natRepr n) = [n] := by
  rw [expandRange, if_neg, strToNat_natRepr]
  · simp
  · rw [contains_eq_false_of_forall_ne (natRepr_not_dash n)]
    simp

/-- `expandRange` on a `start-end` string made of two decimal strings. -/
theorem expandRange_range (a b : Nat) :
    expandRange (natRepr a ++ '-' :: natRepr b) = List.range' a (b + 1 - a) := by
  rw [expandRange, if_pos]
  · rw [takeWhile_append_cons _ _ _ _
      (fun c hc => by simp [natRepr_not_dash a c hc]) (by simp),
      dropWhile_append_cons _ _ _ _
      (fun c hc => by simp [natRepr_not_dash a c hc]) (by simp)]
    simp [strToNat_natRepr]
  · simp [List.contains_cons]

theorem isEmpty_false_of_ne_nil {l : List Char} (h : l ≠ []) : l.isEmpty = false := by
  cases l
  · exact absurd rfl h
  · rfl

/-- How `hunkDigits` evaluates on the digit part of the grammar. -/
theorem hunkDigits_grammar (ds1 : List Char) (ds2 : Option (List Char)) (rest : List Char)
    (h1 : ds1 ≠ []) (h1d : ∀ c ∈ ds1, c.isDigit = true)
    (h2 : ∀ d, ds2 = some d → d ≠ [] ∧ ∀ c ∈ d, c.isDigit = true) :
    hunkDigits (ds1 ++ (optComma ds2 ++ ' ' :: '@' :: '@' :: rest))
      = some (strToNat ds1, ds2.map strToNat) := by
  cases ds2 with
  | none =>
    have hds : (ds1 ++ ' ' :: '@' :: '@' :: rest).takeWhile Char.isDigit = ds1 :=
      takeWhile_append_cons _ _ _ _ h1d (by decide)
    simp only [optComma, List.nil_append, hunkDigits, hds, isEmpty_false_of_ne_nil h1,
      Bool.false_eq_true, if_false, List.drop_left]
    rfl
  | some d =>
    have hd := h2 d rfl
    have hds : (ds1 ++ ',' :: (d ++ ' ' :: '@' :: '@' :: rest)).takeWhile Char.isDigit = ds1 :=
      takeWhile_append_cons _ _ _ _ h1d (by decide)
    have hds2 : (d ++ ' ' :: '@' :: '@' :: rest).takeWhile Char.isDigit = d :=
      takeWhile_append_cons _ _ _ _ hd.2 (by decide)
    simp only [optComma, List.cons_append, List.append_assoc, List.nil_append, hunkDigits,
      hds, isEmpty_false_of_ne_nil h1, Bool.false_eq_true, if_false, List.drop_left, hunkOpt,
      hds2, isEmpty_false_of_ne_nil hd.1, hunkClose,
      if_pos (by decide : pyIsSpace ' ' = true), Option.map_some', if_true]

/-- How `hunkMatch` evaluates on a line of the hunk-header grammar. -/
theorem hunkMatch_grammar (oldp ds1 : List Char) (ds2 : Option (List Char)) (rest : List Char)
    (hop : oldp ≠ []) (hops : ∀ c ∈ oldp, pyIsSpace c = false)
    (h1 : ds1 ≠ []) (h1d : ∀ c ∈ ds1, c.isDigit = true)
    (h2 : ∀ d, ds2 = some d → d ≠ [] ∧ ∀ c ∈ d, c.isDigit = true) :
    hunkMatch ('@' :: '@' :: ' ' :: (oldp ++ ' ' :: '+' ::
        (ds1 ++ (optComma ds2 ++ ' ' :: '@' :: '@' :: rest))))
      = some (strToNat ds1, ds2.map strToNat) := by
  have hw : (oldp ++ ' ' :: '+' ::
      (ds1 ++ (optComma ds2 ++ ' ' :: '@' :: '@' :: rest))).takeWhile
        (fun x => !(pyIsSpace x)) = oldp :=
    takeWhile_append_cons _ _ _ _ (fun c hc => by simp [hops c hc]) (by decide)
  simp only [hunkMatch, hw, isEmpty_false_of_ne_nil hop, Bool.false_eq_true, if_false,
    List.drop_left, hunkPlus, if_pos (by decide : pyIsSpace ' ' = true)]
  exact hunkDigits_grammar ds1 ds2 rest h1 h1d h2

/-!
## Claim theorems
-/

/-- C1: for every line of the hunk-header grammar
`@@ -old +newStart[,newCount] @@...`, `parse_diff_header` returns the
range string `newStart-(newStart+newCount-1)` when `newCount` is present
and positive, and the single line `newStart` when `newCount` is absent or
zero; expanded to line numbers this is `newStart..newStart+newCount-1`,
the single line `newStart`, or the anchor `newStart` respectively. -/
theorem C1_parse_diff_header_ranges (oldp ds1 : List Char) (ds2 : Option (List Char))
    (rest : List Char)
    (hop : oldp ≠ []) (hops : ∀ c ∈ oldp, pyIsSpace c = false)
    (h1 : ds1 ≠ []) (h1d : ∀ c ∈ ds1, c.isDigit = true)
    (h2 : ∀ d, ds2 = some d → d ≠ [] ∧ ∀ c ∈ d, c.isDigit = true) :
    parse_diff_header ('@' :: '@' :: ' ' :: (oldp ++ ' ' :: '+' ::
        (ds1 ++ (optComma ds2 ++ ' ' :: '@' :: '@' :: rest))))
      = some (rangeStr (strToNat ds1) (ds2.map strToNat)) ∧
    yield_changed_lines [(parse_diff_header ('@' :: '@' :: ' ' :: (oldp ++ ' ' :: '+' ::
        (ds1 ++ (optComma ds2 ++ ' ' :: '@' :: '@' :: rest))))).getD []]
      = rangeSet (strToNat ds1) (ds2.map strToNat) := by
  have hm := hunkMatch_grammar oldp ds1 ds2 rest hop hops h1 h1d h2
  have hp : parse_diff_header ('@' :: '@' :: ' ' :: (oldp ++ ' ' :: '+' ::
      (ds1 ++ (optComma ds2 ++ ' ' :: '@' :: '@' :: rest))))
      = some (rangeStr (strToNat ds1) (ds2.map strToNat)) := by
    rw [parse_diff_header, hm]
    cases ds2 with
    | none => rfl
    | some d => rfl
  refine ⟨hp, ?_⟩
  rw [hp]
  cases ds2 with
  | none =>
    simp only [Option.map_none', Option.getD_some, yield_changed_lines, List.flatMap_cons,
      List.flatMap_nil, List.append_nil, rangeStr, rangeSet]
    exact expandRange_single (strToNat ds1)
  | some d =>
    by_cases hd : 0 < strToNat d
    · simp only [Option.map_some', Option.getD_some, yield_changed_lines, List.flatMap_cons,
        List.flatMap_nil, List.append_nil, rangeStr, rangeSet, hd, if_true, expandRange_range]
      congr 1
      omega
    · simp only [Option.map_some', Option.getD_some, yield_changed_lines, List.flatMap_cons,
        List.flatMap_nil, List.append_nil, rangeStr, rangeSet, hd, if_false]
      exact expandRange_single (strToNat ds1)

/-- Witness for C1 at the concrete header `@@ -142 +178,3 @@`. -/
theorem C1_parse_diff_header_ranges_witness :
    parse_diff_header "@@ -142 +178,3 @@".data = some "178-180".data ∧
    yield_changed_lines [(parse_diff_header "@@ -142 +178,3 @@".data).getD []]
      = [178, 179, 180] := by
  have h := C1_parse_diff_header_ranges "-142".data "178".data (some "3".data) []
    (by decide) (by decide) (by decide) (by decide)
    (fun d hd => by cases hd; exact ⟨by decide, by decide⟩)
  have hh : "@@ -142 +178,3 @@".data
      = '@' :: '@' :: ' ' :: ("-142".data ++ ' ' :: '+' ::
        ("178".data ++ (optComma (some "3".data) ++ ' ' :: '@' :: '@' :: ([] : List Char)))) := by
    decide
  rw [hh]
  exact ⟨(h.1).trans (by decide), (h.2).trans (by decide)⟩

/-!
### Lemmas about the trailing-whitespace substitution
-/

theorem lazyMatch_nil : lazyMatch [] = some ([], []) := rfl

theorem subScan_nil : subScan [] = [] := rfl

theorem lazyMatch_newline (t : List Char) : lazyMatch ('\n' :: t) = some (t, ['\n']) := by
  rw [lazyMatch]
  simp

theorem lazyMatch_crlf (t : List Char) :
    lazyMatch ('\r' :: '\n' :: t) = some (t, ['\r', '\n']) := by
  rw [lazyMatch]
  simp

theorem lazyMatch_shape : ∀ s a g, lazyMatch s = some (a, g) →
    g = ['\n'] ∨ g = ['\r', '\n'] ∨ (g = [] ∧ a = []) := by
  intro s
  induction s with
  | nil =>
    intro a g h
    rw [lazyMatch_nil] at h
    cases h
    right; right
    exact ⟨rfl, rfl⟩
  | cons c t ih =>
    intro a g h
    rw [lazyMatch] at h
    split at h
    · cases h
      left; rfl
    · split at h
      · cases h
        right; left; rfl
      · split at h
        · exact ih a g h
        · cases h

theorem lazyMatch_sublist : ∀ s a g, lazyMatch s = some (a, g) → (g ++ a).Sublist s := by
  intro s
  induction s with
  | nil =>
    intro a g h
    rw [lazyMatch_nil] at h
    cases h
    simp
  | cons c t ih =>
    intro a g h
    rw [lazyMatch] at h
    split at h
    · rename_i hc
      cases h
      subst hc
      simp
    · split at h
      · rename_i hc2
        cases h
        obtain ⟨rfl, hh⟩ := hc2
        cases t with
        | nil => simp at hh
        | cons d t2 =>
          simp at hh
          subst hh
          simp
      · split at h
        · exact (ih a g h).cons c
        · cases h

theorem lazyMatch_count : ∀ s a g, lazyMatch s = some (a, g) →
    s.count '\n' = g.count '\n' + a.count '\n' := by
  intro s
  induction s with
  | nil =>
    intro a g h
    rw [lazyMatch_nil] at h
    cases h
    rfl
  | cons c t ih =>
    intro a g h
    rw [lazyMatch] at h
    split at h
    · rename_i hc
      cases h
      subst hc
      simp [List.count_cons]
      omega
    · split at h
      · rename_i hc2
        cases h
        obtain ⟨rfl, hh⟩ := hc2
        cases t with
        | nil => simp at hh
        | cons d t2 =>
          simp at hh
          subst hh
          simp [List.count_cons]
          omega
      · split at h
        · rename_i hc1 hc2 hc3
          have := ih a g h
          simp [List.count_cons, hc1, this]
        · cases h

theorem subScan_cons_of_none {c : Char} {t : List Char} (h : lazyMatch (c :: t) = none) :
    subScan (c :: t) = c :: subScan t := by
  rw [subScan_cons, h]

theorem subScan_head_of_none {r : List Char} (h : lazyMatch r = none) :
    (subScan r).head? = r.head? := by
  cases r with
  | nil =>
    rw [lazyMatch_nil] at h
    cases h
  | cons f r2 =>
    rw [subScan_cons_of_none h]
    rfl

theorem subScan_sublist_aux : ∀ n (s : List Char), s.length ≤ n → (subScan s).Sublist s := by
  intro n
  induction n with
  | zero =>
    intro s hs
    cases s with
    | nil => simp [subScan_nil]
    | cons c t => simp at hs
  | succ n ih =>
    intro s hs
    cases s with
    | nil => simp [subScan_nil]
    | cons c t =>
      rw [subScan_cons]
      cases hm : lazyMatch (c :: t) with
      | some p =>
        have hsub := lazyMatch_sublist _ p.1 p.2 (by simpa using hm)
        have hlt := lazyMatch_length_lt (c :: t) p.1 p.2 (by simp) (by simpa using hm)
        have h1 : (subScan p.1).Sublist p.1 := ih p.1 (by simp at hlt hs; omega)
        exact (h1.append_left p.2).trans hsub
      | none =>
        have h1 : (subScan t).Sublist t := ih t (by simp at hs; omega)
        exact h1.cons₂ c

theorem subScan_sublist (s : List Char) : (subScan s).Sublist s :=
  subScan_sublist_aux s.length s le_rfl

theorem subScan_count_aux : ∀ n (s : List Char), s.length ≤ n →
    (subScan s).count '\n' = s.count '\n' := by
  intro n
  induction n with
  | zero =>
    intro s hs
    cases s with
    | nil => simp [subScan_nil]
    | cons c t => simp at hs
  | succ n ih =>
    intro s hs
    cases s with
    | nil => simp [subScan_nil]
    | cons c t =>
      rw [subScan_cons]
      cases hm : lazyMatch (c :: t) with
      | some p =>
        have hcnt := lazyMatch_count _ p.1 p.2 (by simpa using hm)
        have hlt := lazyMatch_length_lt (c :: t) p.1 p.2 (by simp) (by simpa using hm)
        have h1 := ih p.1 (by simp at hlt hs; omega)
        simp only [List.count_append, h1]
        omega
      | none =>
        have h1 := ih t (by simp at hs; omega)
        simp [List.count_cons, h1]

theorem subScan_count (s : List Char) : (subScan s).count '\n' = s.count '\n' :=
  subScan_count_aux s.length s le_rfl

theorem lazyMatch_subScan_none_aux : ∀ n (s : List Char), s.length ≤ n →
    lazyMatch s = none → lazyMatch (subScan s) = none := by
  intro n
  induction n with
  | zero =>
    intro s hs h
    cases s with
    | nil =>
      rw [lazyMatch_nil] at h
      cases h
    | cons c t => simp at hs
  | succ n ih =>
    intro s hs h
    cases s with
    | nil =>
      rw [lazyMatch_nil] at h
      cases h
    | cons e r =>
      have hrec := h
      rw [lazyMatch] at hrec
      split at hrec
      · cases hrec
      · split at hrec
        · cases hrec
        · split at hrec
          · rename_i h1 h2 h3
            rw [subScan_cons_of_none h, lazyMatch, if_neg h1]
            have hhd : (subScan r).head? = r.head? := subScan_head_of_none hrec
            have h2b : ¬(e = '\r' ∧ (subScan r).head? = some '\n') := by
              rw [hhd]
              exact h2
            rw [if_neg h2b, if_pos h3]
            exact ih r (by simp at hs; omega) hrec
          · rename_i h1 h2 h3
            rw [subScan_cons_of_none h, lazyMatch, if_neg h1]
            have he_r : e ≠ '\r' := by
              intro he
              subst he
              simp [pyIsSpace] at h3
            have h2b : ¬(e = '\r' ∧ (subScan r).head? = some '\n') := fun hx => he_r hx.1
            rw [if_neg h2b, if_neg h3]

theorem cleanB_of_subScan_aux : ∀ n (s : List Char), s.length ≤ n →
    cleanB (subScan s) = true := by
  intro n
  induction n with
  | zero =>
    intro s hs
    cases s with
    | nil => simp [subScan_nil, cleanB]
    | cons c t => simp at hs
  | succ n ih =>
    intro s hs
    cases s with
    | nil => simp [subScan_nil, cleanB]
    | cons c t =>
      rw [subScan_cons]
      cases hm : lazyMatch (c :: t) with
      | some p =>
        obtain ⟨pa, pg⟩ := p
        have hlt := lazyMatch_length_lt (c :: t) pa pg (by simp) hm
        have h1 := ih pa (by simp at hlt hs; omega)
        show cleanB (pg ++ subScan pa) = true
        rcases lazyMatch_shape _ pa pg hm with hg | hg | hg
        · rw [hg]
          simp [cleanB, h1]
        · rw [hg]
          simp [cleanB, h1]
        · rw [hg.1, hg.2]
          simp [subScan_nil, cleanB]
      | none =>
        have h1 := ih t (by simp at hs; omega)
        have hrec := hm
        rw [lazyMatch] at hrec
        split at hrec
        · cases hrec
        · split at hrec
          · cases hrec
          · split at hrec
            · rename_i hc1 hc2 hc3
              have hnone := lazyMatch_subScan_none_aux t.length t le_rfl hrec
              simp [cleanB, h1, hnone]
            · rename_i hc1 hc2 hc3
              simp [cleanB, h1, hc3]

theorem cleanB_of_subScan (s : List Char) : cleanB (subScan s) = true :=
  cleanB_of_subScan_aux s.length s le_rfl

theorem subScan_of_cleanB_aux : ∀ n (s : List Char), s.length ≤ n →
    cleanB s = true → subScan s = s := by
  intro n
  induction n with
  | zero =>
    intro s hs _
    cases s with
    | nil => exact subScan_nil
    | cons c t => simp at hs
  | succ n ih =>
    intro s hs h
    cases s with
    | nil => exact subScan_nil
    | cons c t =>
      have hsplit : ((!(pyIsSpace c) || c = '\n' || (c = '\r' && t.head? = some '\n') ||
          (lazyMatch t).isNone) = true) ∧ cleanB t = true := by
        simpa [cleanB, Bool.and_eq_true] using h
      have hct := hsplit.2
      by_cases hc1 : c = '\n'
      · subst hc1
        rw [subScan_cons, lazyMatch_newline]
        simp only []
        rw [ih t (by simp at hs; omega) hct]
        rfl
      · by_cases hc2 : c = '\r' ∧ t.head? = some '\n'
        · obtain ⟨rfl, hh⟩ := hc2
          cases t with
          | nil => simp at hh
          | cons d t2 =>
            simp at hh
            subst hh
            rw [subScan_cons, lazyMatch_crlf]
            simp only []
            have hct2 : cleanB t2 = true := by
              simp [cleanB] at hct
              exact hct
            rw [ih t2 (by simp at hs; omega) hct2]
            rfl
        · have hnone : lazyMatch (c :: t) = none := by
            rw [lazyMatch, if_neg hc1, if_neg hc2]
            rcases (by simpa using hsplit.1 :
                ((pyIsSpace c = false ∨ c = '\n') ∨ (c = '\r' ∧ t.head? = some '\n')) ∨
                  lazyMatch t = none) with ((hx | hx) | hx) | hx
            · rw [hx]
              simp
            · exact absurd hx hc1
            · exact absurd hx hc2
            · split
              · exact hx
              · rfl
          rw [subScan_cons_of_none hnone, ih t (by simp at hs; omega) hct]

theorem subScan_of_cleanB (s : List Char) (h : cleanB s = true) : subScan s = s :=
  subScan_of_cleanB_aux s.length s le_rfl h

theorem subScan_idem (s : List Char) : subScan (subScan s) = subScan s :=
  subScan_of_cleanB _ (cleanB_of_subScan s)

/-!
### Lemmas about the line-scoped checkers
-/

theorem pyGet_coe_sub_one {α : Type} (l : List α) (n : Nat) (h : 1 ≤ n) :
    pyGet l ((n : Int) - 1) = l.get? (n - 1) := by
  unfold pyGet
  rw [if_pos (by omega)]
  congr 1
  omega

theorem pySet_coe_sub_one {α : Type} (l : List α) (n : Nat) (v : α) (h : 1 ≤ n) :
    pySet l ((n : Int) - 1) v = l.set (n - 1) v := by
  unfold pySet
  rw [if_pos (by omega)]
  congr 1
  omega

theorem pyGet_neg_one {α : Type} (l : List α) (h : l ≠ []) :
    pyGet l ((0 : Int) - 1) = l.getLast? := by
  unfold pyGet
  have hlen : 1 ≤ l.length := by
    cases l
    · exact absurd rfl h
    · simp
  rw [if_neg (by omega), if_pos (by simpa using hlen)]
  rw [List.getLast?_eq_getElem?, List.get?_eq_getElem?]
  congr 1

theorem pySet_length {α : Type} (l : List α) (i : Int) (v : α) :
    (pySet l i v).length = l.length := by
  unfold pySet
  split <;> simp

theorem isSome_get?_iff {α : Type} (l : List α) (n : Nat) :
    (l.get? n).isSome = true ↔ n < l.length := by
  rw [List.get?_eq_getElem?]
  constructor
  · intro h
    by_contra hc
    rw [List.getElem?_eq_none (by omega)] at h
    simp at h
  · intro h
    rw [List.getElem?_eq_some.mpr ⟨h, rfl⟩]
    rfl

theorem pyGet_isSome_of_length_eq {α : Type} (l l2 : List α) (h : l.length = l2.length)
    (i : Int) : (pyGet l i).isSome = (pyGet l2 i).isSome := by
  have hg : ∀ k, (l.get? k).isSome = (l2.get? k).isSome := by
    intro k
    by_cases hk : k < l2.length
    · rw [(isSome_get?_iff l k).mpr (by omega), (isSome_get?_iff l2 k).mpr hk]
    · have e1 : l.get? k = none := by
        rw [List.get?_eq_getElem?]
        exact List.getElem?_eq_none (by omega)
      have e2 : l2.get? k = none := by
        rw [List.get?_eq_getElem?]
        exact List.getElem?_eq_none (by omega)
      rw [e1, e2]
  unfold pyGet
  rw [h]
  split
  · exact hg _
  · split
    · exact hg _
    · rfl

theorem set_length_sub_one_eq {α : Type} (l : List α) (v : α) (h : l ≠ []) :
    l.set (l.length - 1) v = l.dropLast ++ [v] := by
  induction l with
  | nil => exact absurd rfl h
  | cons a t ih =>
    cases t with
    | nil => rfl
    | cons b t2 =>
      have hih := ih (by simp)
      have hl : (a :: b :: t2).length - 1 = ((b :: t2).length - 1) + 1 := by simp
      rw [hl]
      show a :: ((b :: t2).set ((b :: t2).length - 1) v) = (a :: b :: t2).dropLast ++ [v]
      rw [hih]
      simp

theorem stripLine_nil : stripLine [] = [] := rfl

theorem stripLine_cons (c : Char) (rest : List Char) :
    stripLine (c :: rest) =
      if (c = '\n' ∧ rest = []) ∨ (c = '\r' ∧ rest = ['\n']) then c :: rest
      else if pyIsSpace c then
        if stripLine rest = ['\n'] ∨ stripLine rest = ['\r', '\n'] ∨ stripLine rest = [] then
          stripLine rest
        else c :: stripLine rest
      else c :: stripLine rest := by
  rw [stripLine]

theorem termSplit_nil : termSplit [] = [] := by
  rw [termSplit]

theorem termSplit_cons (c : Char) (rest : List Char) :
    termSplit (c :: rest) =
      if c = '\n' then ['\n'] :: termSplit rest
      else if c = '\r' ∧ rest.head? = some '\n' then ['\r', '\n'] :: termSplit rest.tail
      else
        match termSplit rest with
        | [] => [[c]]
        | l :: ls => (c :: l) :: ls := by
  rw [termSplit]

theorem stripLine_all_ws : ∀ a : List Char, (∀ x ∈ a, pyIsSpace x = true) → '\n' ∉ a →
    stripLine a = [] := by
  intro a
  induction a with
  | nil => intro _ _; rfl
  | cons c rest ih =>
    intro hw hn
    have hc : pyIsSpace c = true := hw c (List.mem_cons_self c rest)
    have hcn : c ≠ '\n' := fun h => hn (h ▸ List.mem_cons_self c rest)
    have hnr : '\n' ∉ rest := fun h => hn (List.mem_cons_of_mem c h)
    have hr : stripLine rest = [] :=
      ih (fun x hx => hw x (List.mem_cons_of_mem c hx)) hnr
    rw [stripLine_cons, if_neg, if_pos hc, if_pos (Or.inr (Or.inr hr))]
    · exact hr
    · rintro (⟨h1, _⟩ | ⟨_, h2⟩)
      · exact hcn h1
      · exact hnr (by simp [h2])

theorem mem_stripLine_of_not_space : ∀ (l : List Char) (x : Char), x ∈ l →
    pyIsSpace x = false → x ∈ stripLine l := by
  intro l
  induction l with
  | nil => intro x hx _; cases hx
  | cons c rest ih =>
    intro x hx hws
    rw [stripLine_cons]
    split
    · exact hx
    · rcases List.mem_cons.mp hx with rfl | hxr
      · rw [if_neg (by simp [hws])]
        exact List.mem_cons_self x _
      · have hmem := ih x hxr hws
        by_cases hc : pyIsSpace c = true
        · rw [if_pos hc]
          split
          · exact hmem
          · exact List.mem_cons_of_mem c hmem
        · rw [if_neg hc]
          exact List.mem_cons_of_mem c hmem

theorem lazyMatch_no_newline : ∀ t : List Char, '\n' ∉ t →
    lazyMatch t = if t.all pyIsSpace then some ([], []) else none := by
  intro t
  induction t with
  | nil => intro _; rfl
  | cons c rest ih =>
    intro hn
    have hcn : c ≠ '\n' := fun h => hn (h ▸ List.mem_cons_self c rest)
    have hnr : '\n' ∉ rest := fun h => hn (List.mem_cons_of_mem c h)
    have hcr : ¬ (c = '\r' ∧ rest.head? = some '\n') := by
      rintro ⟨_, hh⟩
      cases rest with
      | nil => simp at hh
      | cons d r2 =>
        simp at hh
        exact hnr (by simp [hh])
    rw [lazyMatch, if_neg hcn, if_neg hcr]
    by_cases hc : pyIsSpace c = true
    · rw [if_pos hc, ih hnr, List.all_cons, hc, Bool.true_and]
    · rw [if_neg hc, List.all_cons]
      rw [Bool.not_eq_true] at hc
      rw [hc, Bool.false_and, if_neg Bool.false_ne_true]

theorem subScan_no_newline : ∀ s : List Char, '\n' ∉ s → subScan s = stripLine s := by
  intro s
  induction s with
  | nil => intro _; rfl
  | cons c rest ih =>
    intro hn
    have hcn : c ≠ '\n' := fun h => hn (h ▸ List.mem_cons_self c rest)
    have hnr : '\n' ∉ rest := fun h => hn (List.mem_cons_of_mem c h)
    by_cases hall : (c :: rest).all pyIsSpace = true
    · have hm : lazyMatch (c :: rest) = some ([], []) := by
        rw [lazyMatch_no_newline (c :: rest) hn, if_pos hall]
      rw [subScan_cons, hm]
      simp only []
      rw [stripLine_all_ws (c :: rest) (fun x hx => List.all_eq_true.mp hall x hx) hn]
      rfl
    · have hm : lazyMatch (c :: rest) = none := by
        rw [lazyMatch_no_newline (c :: rest) hn, if_neg hall]
      rw [subScan_cons_of_none hm, ih hnr, stripLine_cons]
      have hfirst : ¬ ((c = '\n' ∧ rest = []) ∨ (c = '\r' ∧ rest = ['\n'])) := by
        rintro (⟨h1, _⟩ | ⟨_, h2⟩)
        · exact hcn h1
        · exact hnr (by simp [h2])
      rw [if_neg hfirst]
      by_cases hc : pyIsSpace c = true
      · rw [if_pos hc]
        have hex : ∃ x ∈ rest, pyIsSpace x = false := by
          rw [List.all_cons, hc, Bool.true_and] at hall
          simp only [List.all_eq_true] at hall
          push_neg at hall
          obtain ⟨x, hxm, hxw⟩ := hall
          exact ⟨x, hxm, Bool.eq_false_iff.mpr hxw⟩
        obtain ⟨x, hxm, hxw⟩ := hex
        have hxs : x ∈ stripLine rest := mem_stripLine_of_not_space rest x hxm hxw
        rw [if_neg]
        rintro (h1 | h1 | h1) <;> rw [h1] at hxs
        · simp at hxs
          rw [hxs] at hxw
          exact absurd hxw (by decide)
        · simp at hxs
          rcases hxs with h2 | h2 <;> (rw [h2] at hxw; exact absurd hxw (by decide))
        · cases hxs
      · rw [if_neg hc]

theorem lineTerm_nil : lineTerm [] = ['\n'] := rfl

theorem lineTerm_single (c : Char) :
    lineTerm [c] = if c = '\r' then ['\r', '\n'] else ['\n'] := by
  unfold lineTerm
  simp

theorem lineTerm_cons_cons (c d : Char) (t : List Char) :
    lineTerm (c :: d :: t) = lineTerm (d :: t) := by
  unfold lineTerm
  rw [List.getLast?_cons_cons]

theorem stripLine_ws_newline : ∀ a : List Char, (∀ x ∈ a, pyIsSpace x = true) → '\n' ∉ a →
    stripLine (a ++ ['\n']) = lineTerm a := by
  intro a
  induction a with
  | nil => intro _ _; decide
  | cons c a' ih =>
    intro hw hn
    have hc : pyIsSpace c = true := hw c (List.mem_cons_self c a')
    have hcn : c ≠ '\n' := fun h => hn (h ▸ List.mem_cons_self c a')
    have hna : '\n' ∉ a' := fun h => hn (List.mem_cons_of_mem c h)
    cases a' with
    | nil =>
      by_cases hr : c = '\r'
      · subst hr
        decide
      · show stripLine (c :: ['\n']) = lineTerm [c]
        have hfirst : ¬ ((c = '\n' ∧ (['\n'] : List Char) = []) ∨
            (c = '\r' ∧ (['\n'] : List Char) = ['\n'])) := by
          rintro (⟨h, _⟩ | ⟨h, _⟩)
          · exact hcn h
          · exact hr h
        rw [stripLine_cons, if_neg hfirst, if_pos hc, if_pos (Or.inl (by decide)),
          lineTerm_single, if_neg hr]
        decide
    | cons d a'' =>
      show stripLine (c :: ((d :: a'') ++ ['\n'])) = lineTerm (c :: d :: a'')
      rw [stripLine_cons]
      have hfirst : ¬ ((c = '\n' ∧ (d :: a'') ++ ['\n'] = []) ∨
          (c = '\r' ∧ (d :: a'') ++ ['\n'] = ['\n'])) := by
        rintro (⟨h, _⟩ | ⟨_, h⟩)
        · exact hcn h
        · simp at h
      rw [if_neg hfirst, if_pos hc]
      have hrec : stripLine ((d :: a'') ++ ['\n']) = lineTerm (d :: a'') :=
        ih (fun x hx => hw x (List.mem_cons_of_mem c hx)) hna
      rw [hrec]
      have hset : lineTerm (d :: a'') = ['\n'] ∨ lineTerm (d :: a'') = ['\r', '\n'] ∨
          lineTerm (d :: a'') = [] := by
        unfold lineTerm
        split
        · exact Or.inr (Or.inl rfl)
        · exact Or.inl rfl
      rw [if_pos hset]
      exact (lineTerm_cons_cons c d a'').symm

theorem lazyMatch_ws_newline : ∀ (a b : List Char), (∀ x ∈ a, pyIsSpace x = true) →
    '\n' ∉ a → lazyMatch (a ++ '\n' :: b) = some (b, lineTerm a) := by
  intro a
  induction a with
  | nil =>
    intro b _ _
    rw [List.nil_append, lazyMatch_newline, lineTerm_nil]
  | cons c a' ih =>
    intro b hw hn
    have hc : pyIsSpace c = true := hw c (List.mem_cons_self c a')
    have hcn : c ≠ '\n' := fun h => hn (h ▸ List.mem_cons_self c a')
    have hna : '\n' ∉ a' := fun h => hn (List.mem_cons_of_mem c h)
    show lazyMatch (c :: (a' ++ '\n' :: b)) = some (b, lineTerm (c :: a'))
    rw [lazyMatch, if_neg hcn]
    cases a' with
    | nil =>
      by_cases hr : c = '\r'
      · rw [if_pos ⟨hr, by simp⟩]
        subst hr
        rw [lineTerm_single]
        simp
      · rw [if_neg (by rintro ⟨h, _⟩; exact hr h), if_pos hc]
        rw [List.nil_append, lazyMatch_newline, lineTerm_single, if_neg hr]
    | cons d a'' =>
      have hhead : ¬ (c = '\r' ∧ ((d :: a'') ++ '\n' :: b).head? = some '\n') := by
        rintro ⟨_, hh⟩
        simp at hh
        exact hna (by simp [hh])
      rw [if_neg hhead, if_pos hc,
        ih b (fun x hx => hw x (List.mem_cons_of_mem c hx)) hna,
        lineTerm_cons_cons]

theorem lazyMatch_none_of_nonspace : ∀ (a b : List Char) (x : Char), x ∈ a →
    pyIsSpace x = false → '\n' ∉ a → lazyMatch (a ++ '\n' :: b) = none := by
  intro a
  induction a with
  | nil => intro b x hx _ _; cases hx
  | cons c a' ih =>
    intro b x hx hxw hn
    have hcn : c ≠ '\n' := fun h => hn (h ▸ List.mem_cons_self c a')
    have hna : '\n' ∉ a' := fun h => hn (List.mem_cons_of_mem c h)
    show lazyMatch (c :: (a' ++ '\n' :: b)) = none
    rw [lazyMatch, if_neg hcn]
    by_cases hc : pyIsSpace c = true
    · have hxa : x ∈ a' := by
        rcases List.mem_cons.mp hx with rfl | h
        · rw [hc] at hxw; cases hxw
        · exact h
      have ha'ne : a' ≠ [] := fun h => by rw [h] at hxa; cases hxa
      have hhead : ¬ (c = '\r' ∧ (a' ++ '\n' :: b).head? = some '\n') := by
        rintro ⟨_, hh⟩
        cases a' with
        | nil => exact ha'ne rfl
        | cons d a'' =>
          simp at hh
          exact hna (by simp [hh])
      rw [if_neg hhead, if_pos hc]
      exact ih b x hxa hxw hna
    · have hhead : ¬ (c = '\r' ∧ (a' ++ '\n' :: b).head? = some '\n') := by
        rintro ⟨hr, _⟩
        rw [hr] at hc
        exact hc (by decide)
      rw [if_neg hhead, if_neg hc]

theorem subScan_split_newline : ∀ (a b : List Char), '\n' ∉ a →
    subScan (a ++ '\n' :: b) = stripLine (a ++ ['\n']) ++ subScan b := by
  intro a
  induction a with
  | nil =>
    intro b _
    rw [List.nil_append, subScan_cons, lazyMatch_newline]
    simp only []
    rw [List.nil_append, show stripLine ['\n'] = ['\n'] by decide]
  | cons c a' ih =>
    intro b hn
    have hcn : c ≠ '\n' := fun h => hn (h ▸ List.mem_cons_self c a')
    have hna : '\n' ∉ a' := fun h => hn (List.mem_cons_of_mem c h)
    by_cases hc : pyIsSpace c = true
    · by_cases hall : ∀ x ∈ a', pyIsSpace x = true
      · have hwAll : ∀ x ∈ c :: a', pyIsSpace x = true := by
          intro x hx
          rcases List.mem_cons.mp hx with rfl | h
          · exact hc
          · exact hall x h
        have hm : lazyMatch (c :: (a' ++ '\n' :: b)) = some (b, lineTerm (c :: a')) :=
          lazyMatch_ws_newline (c :: a') b hwAll hn
        show subScan (c :: (a' ++ '\n' :: b)) = stripLine (c :: (a' ++ ['\n'])) ++ subScan b
        rw [subScan_cons, hm]
        simp only []
        have hstr : stripLine (c :: (a' ++ ['\n'])) = lineTerm (c :: a') :=
          stripLine_ws_newline (c :: a') hwAll hn
        rw [hstr]
      · push_neg at hall
        obtain ⟨x, hxm, hxw'⟩ := hall
        have hxw : pyIsSpace x = false := Bool.eq_false_iff.mpr hxw'
        have ha'ne : a' ≠ [] := fun h => by rw [h] at hxm; cases hxm
        have hm : lazyMatch (c :: (a' ++ '\n' :: b)) = none := by
          rw [lazyMatch, if_neg hcn]
          have hhead : ¬ (c = '\r' ∧ (a' ++ '\n' :: b).head? = some '\n') := by
            rintro ⟨_, hh⟩
            cases a' with
            | nil => exact ha'ne rfl
            | cons d a'' =>
              simp at hh
              exact hna (by simp [hh])
          rw [if_neg hhead, if_pos hc]
          exact lazyMatch_none_of_nonspace a' b x hxm hxw hna
        rw [show ((c :: a') ++ '\n' :: b) = c :: (a' ++ '\n' :: b) from rfl,
          subScan_cons_of_none hm, ih b hna]
        rw [show ((c :: a') ++ ['\n']) = c :: (a' ++ ['\n']) from rfl, stripLine_cons]
        have hfirst : ¬ ((c = '\n' ∧ a' ++ ['\n'] = []) ∨
            (c = '\r' ∧ a' ++ ['\n'] = ['\n'])) := by
          rintro (⟨h, _⟩ | ⟨_, h⟩)
          · exact hcn h
          · have : a' = [] := by
              cases a' with
              | nil => rfl
              | cons d a'' => simp at h
            exact ha'ne this
        rw [if_neg hfirst, if_pos hc]
        have hxs : x ∈ stripLine (a' ++ ['\n']) :=
          mem_stripLine_of_not_space _ x (by simp [hxm]) hxw
        have hnset : ¬ (stripLine (a' ++ ['\n']) = ['\n'] ∨
            stripLine (a' ++ ['\n']) = ['\r', '\n'] ∨ stripLine (a' ++ ['\n']) = []) := by
          rintro (h1 | h1 | h1) <;> rw [h1] at hxs
          · simp at hxs
            rw [hxs] at hxw
            exact absurd hxw (by decide)
          · simp at hxs
            rcases hxs with h2 | h2 <;> (rw [h2] at hxw; exact absurd hxw (by decide))
          · cases hxs
        rw [if_neg hnset]
        simp
    · have hm : lazyMatch (c :: (a' ++ '\n' :: b)) = none := by
        rw [lazyMatch, if_neg hcn]
        have hhead : ¬ (c = '\r' ∧ (a' ++ '\n' :: b).head? = some '\n') := by
          rintro ⟨hr, _⟩
          rw [hr] at hc
          exact hc (by decide)
        rw [if_neg hhead, if_neg hc]
      rw [show ((c :: a') ++ '\n' :: b) = c :: (a' ++ '\n' :: b) from rfl,
        subScan_cons_of_none hm, ih b hna]
      rw [show ((c :: a') ++ ['\n']) = c :: (a' ++ ['\n']) from rfl, stripLine_cons]
      have hfirst : ¬ ((c = '\n' ∧ a' ++ ['\n'] = []) ∨
          (c = '\r' ∧ a' ++ ['\n'] = ['\n'])) := by
        rintro (⟨h, _⟩ | ⟨hr, _⟩)
        · exact hcn h
        · rw [hr] at hc
          exact hc (by decide)
      rw [if_neg hfirst, if_neg hc]
      simp

theorem exists_first_newline : ∀ s : List Char, '\n' ∈ s →
    ∃ a b, s = a ++ '\n' :: b ∧ '\n' ∉ a := by
  intro s
  induction s with
  | nil => intro h; cases h
  | cons c rest ih =>
    intro h
    by_cases hc : c = '\n'
    · exact ⟨[], rest, by rw [hc]; rfl, by intro hx; cases hx⟩
    · have hr : '\n' ∈ rest := by
        rcases List.mem_cons.mp h with h1 | h1
        · exact absurd h1.symm hc
        · exact h1
      obtain ⟨a, b, heq, hna⟩ := ih hr
      refine ⟨c :: a, b, by rw [heq]; rfl, ?_⟩
      intro hx
      rcases List.mem_cons.mp hx with h1 | h1
      · exact hc h1.symm
      · exact hna h1

theorem termSplit_no_newline : ∀ s : List Char, '\n' ∉ s →
    termSplit s = if s.isEmpty then [] else [s] := by
  intro s
  induction s with
  | nil => intro _; rw [termSplit_nil]; rfl
  | cons c rest ih =>
    intro hn
    have hcn : c ≠ '\n' := fun h => hn (h ▸ List.mem_cons_self c rest)
    have hnr : '\n' ∉ rest := fun h => hn (List.mem_cons_of_mem c h)
    have hcr : ¬ (c = '\r' ∧ rest.head? = some '\n') := by
      rintro ⟨_, hh⟩
      cases rest with
      | nil => simp at hh
      | cons d r2 =>
        simp at hh
        exact hnr (by simp [hh])
    rw [termSplit_cons, if_neg hcn, if_neg hcr, ih hnr]
    cases rest with
    | nil => rfl
    | cons d r2 => rfl

theorem termSplit_split : ∀ (a b : List Char), '\n' ∉ a →
    termSplit (a ++ '\n' :: b) = (a ++ ['\n']) :: termSplit b := by
  intro a
  induction a with
  | nil =>
    intro b _
    rw [List.nil_append, termSplit_cons, if_pos rfl]
    rfl
  | cons c a' ih =>
    intro b hn
    have hcn : c ≠ '\n' := fun h => hn (h ▸ List.mem_cons_self c a')
    have hna : '\n' ∉ a' := fun h => hn (List.mem_cons_of_mem c h)
    show termSplit (c :: (a' ++ '\n' :: b)) = ((c :: a') ++ ['\n']) :: termSplit b
    rw [termSplit_cons, if_neg hcn]
    cases a' with
    | nil =>
      by_cases hr : c = '\r'
      · rw [if_pos ⟨hr, by simp⟩]
        subst hr
        rfl
      · rw [if_neg (by rintro ⟨h, _⟩; exact hr h)]
        rw [List.nil_append, termSplit_cons, if_pos rfl]
        rfl
    | cons d a'' =>
      have hhead : ¬ (c = '\r' ∧ ((d :: a'') ++ '\n' :: b).head? = some '\n') := by
        rintro ⟨_, hh⟩
        simp at hh
        exact hna (by simp [hh])
      rw [if_neg hhead, ih b hna]
      rfl

theorem subScan_eq_termSplit_aux : ∀ n (s : List Char), s.length ≤ n →
    subScan s = (termSplit s).flatMap stripLine := by
  intro n
  induction n with
  | zero =>
    intro s hs
    have : s = [] := by
      cases s
      · rfl
      · simp at hs
    subst this
    rw [subScan_nil, termSplit_nil]
    rfl
  | succ n ih =>
    intro s hs
    by_cases hmem : '\n' ∈ s
    · obtain ⟨a, b, rfl, hna⟩ := exists_first_newline s hmem
      rw [subScan_split_newline a b hna, termSplit_split a b hna, List.flatMap_cons]
      congr 1
      exact ih b (by simp at hs; omega)
    · rw [subScan_no_newline s hmem, termSplit_no_newline s hmem]
      cases s with
      | nil => rfl
      | cons c t =>
        rw [if_neg (by simp)]
        simp

theorem subScan_eq_termSplit (s : List Char) :
    subScan s = (termSplit s).flatMap stripLine :=
  subScan_eq_termSplit_aux s.length s le_rfl

/-- C3: `trim_trailing_whitespace` is idempotent, and it performs exactly
the per-line transformation the claim describes: `termSplit` cuts the
string into lines, each carrying its own `\n` or `\r\n` terminator
(`\r\n` kept as one unit), and `stripLine` keeps that terminator
verbatim while deleting exactly the whitespace run standing between the
last other character and the terminator (or the end of an unterminated
final line), leaving everything before that run — interior whitespace
included — unchanged.  Hence no line terminator is ever removed or
altered and no interior whitespace is touched.  The result is moreover a
sublist of the input with the count of line feeds preserved, and the
concrete example ` a \r\n  b   \n c\n ` maps to ` a\r\n  b\n c\n`. -/
theorem C3_trim_trailing_whitespace_idempotent :
    (∀ s, trim_trailing_whitespace (trim_trailing_whitespace s) = trim_trailing_whitespace s)
    ∧ (∀ s, trim_trailing_whitespace s = (termSplit s).flatMap stripLine)
    ∧ (∀ s, (trim_trailing_whitespace s).Sublist s)
    ∧ (∀ s, (trim_trailing_whitespace s).count '\n' = s.count '\n')
    ∧ trim_trailing_whitespace " a \r\n  b   \n c\n ".data = " a\r\n  b\n c\n".data :=
  ⟨subScan_idem, subScan_eq_termSplit, subScan_sublist, subScan_count, by decide⟩

theorem dnmLoop_filter (lines : List (List Char)) :
    ∀ ns, dnmLoop lines ns
      = dnmLoop lines (ns.filter fun n : Nat => (pyGet lines ((n : Int) - 1)).isSome) := by
  intro ns
  induction ns with
  | nil => rfl
  | cons n ns ih =>
    rw [List.filter_cons]
    cases hg : pyGet lines ((n : Int) - 1) with
    | none =>
      simp only [hg, Option.isSome_none, Bool.false_eq_true, if_false]
      simp only [dnmLoop, hg]
      exact ih
    | some l =>
      simp only [hg, Option.isSome_some, if_true]
      simp only [dnmLoop, hg]
      split
      · rfl
      · exact ih

theorem trimLoop_filter (dry : Bool) :
    ∀ ns (lines : List (List Char)),
      trimLoop dry ns lines
        = trimLoop dry (ns.filter fun n : Nat => (pyGet lines ((n : Int) - 1)).isSome) lines := by
  intro ns
  induction ns with
  | nil => intro lines; rfl
  | cons n ns ih =>
    intro lines
    rw [List.filter_cons]
    cases hg : pyGet lines ((n : Int) - 1) with
    | none =>
      simp only [hg, Option.isSome_none, Bool.false_eq_true, if_false]
      simp only [trimLoop, hg]
      exact ih lines
    | some before =>
      simp only [hg, Option.isSome_some, if_true]
      simp only [trimLoop, hg]
      split
      · exact ih lines
      · split
        · rw [ih lines]
        · rw [ih (pySet lines ((n : Int) - 1) (trim_trailing_whitespace before))]
          have hf : (ns.filter fun m : Nat =>
                (pyGet (pySet lines ((n : Int) - 1) (trim_trailing_whitespace before))
                  ((m : Int) - 1)).isSome)
              = ns.filter fun m : Nat => (pyGet lines ((m : Int) - 1)).isSome := by
            apply List.filter_congr
            intro m _
            exact pyGet_isSome_of_length_eq _ _ (by rw [pySet_length]) _
          rw [hf]

theorem dnmLoop_zero (lines : List (List Char)) : ∀ ns : List Nat,
    (∀ n : Nat, n ∈ ns → ∀ l, pyGet lines ((n : Int) - 1) = some l →
      containsSub dnmPhrase (l.map toLowerChar) = false) →
    dnmLoop lines ns = 0 := by
  intro ns
  induction ns with
  | nil => intro _; rfl
  | cons n ns ih =>
    intro h
    simp only [dnmLoop]
    cases hg : pyGet lines ((n : Int) - 1) with
    | none => exact ih fun m hm => h m (List.mem_cons_of_mem _ hm)
    | some l =>
      simp only []
      rw [h n (List.mem_cons_self _ _) l hg]
      simp only [Bool.false_eq_true, if_false]
      exact ih fun m hm => h m (List.mem_cons_of_mem _ hm)

theorem trimLoop_preserve (dry : Bool) :
    ∀ ns (lines : List (List Char)) (i : Nat),
      (∀ n ∈ ns, 1 ≤ n) → (i + 1) ∉ ns →
      ((trimLoop dry ns lines).1).get? i = lines.get? i := by
  intro ns
  induction ns with
  | nil => intro lines i _ _; rfl
  | cons n ns ih =>
    intro lines i hpos hi
    simp only [trimLoop]
    cases hg : pyGet lines ((n : Int) - 1) with
    | none => exact ih lines i (fun m hm => hpos m (by simp [hm])) (by simp at hi; tauto)
    | some before =>
      simp only []
      split
      · exact ih lines i (fun m hm => hpos m (by simp [hm])) (by simp at hi; tauto)
      · split
        · exact ih lines i (fun m hm => hpos m (by simp [hm])) (by simp at hi; tauto)
        · rw [ih _ i (fun m hm => hpos m (by simp [hm])) (by simp at hi; tauto)]
          rw [pySet_coe_sub_one lines n _ (hpos n (by simp))]
          rw [List.get?_eq_getElem?, List.get?_eq_getElem?]
          apply List.getElem?_set_ne
          have : n ≠ i + 1 := by simp at hi; tauto
          have hn1 : 1 ≤ n := hpos n (by simp)
          omega

theorem trimLoop_ml_mem (dry : Bool) :
    ∀ ns (lines : List (List Char)) (s : List Char),
      s ∈ (trimLoop dry ns lines).2.2 → ∃ n ∈ ns, s = natRepr n := by
  intro ns
  induction ns with
  | nil =>
    intro lines s hs
    simp [trimLoop] at hs
  | cons n ns ih =>
    intro lines s hs
    simp only [trimLoop] at hs
    cases hg : pyGet lines ((n : Int) - 1) with
    | none =>
      rw [hg] at hs
      simp only [] at hs
      obtain ⟨m, hm, he⟩ := ih lines s hs
      exact ⟨m, by simp [hm], he⟩
    | some before =>
      rw [hg] at hs
      simp only [] at hs
      split at hs
      · obtain ⟨m, hm, he⟩ := ih lines s hs
        exact ⟨m, by simp [hm], he⟩
      · split at hs
        · simp only [List.mem_cons] at hs
          rcases hs with hs | hs
          · exact ⟨n, by simp, hs⟩
          · obtain ⟨m, hm, he⟩ := ih lines s hs
            exact ⟨m, by simp [hm], he⟩
        · obtain ⟨m, hm, he⟩ := ih _ s hs
          exact ⟨m, by simp [hm], he⟩

theorem trimLoop_fix_ml : ∀ ns (lines : List (List Char)),
    (trimLoop false ns lines).2.2 = [] := by
  intro ns
  induction ns with
  | nil => intro lines; rfl
  | cons n ns ih =>
    intro lines
    simp only [trimLoop]
    cases hg : pyGet lines ((n : Int) - 1) with
    | none => exact ih lines
    | some before =>
      simp only []
      split
      · exact ih lines
      · simp only [Bool.false_eq_true, if_false]
        exact ih _

theorem trimLoop_dry_ml_isEmpty : ∀ ns (lines : List (List Char)),
    (trimLoop true ns lines).2.2.isEmpty
      = !(ns.any fun n : Nat =>
          match pyGet lines ((n : Int) - 1) with
          | some l => decide (¬ trim_trailing_whitespace l = l)
          | none => false) := by
  intro ns
  induction ns with
  | nil => intro lines; rfl
  | cons n ns ih =>
    intro lines
    simp only [trimLoop, List.any_cons]
    cases hg : pyGet lines ((n : Int) - 1) with
    | none =>
      simp only []
      rw [ih lines]
      simp
    | some before =>
      simp only []
      split
      · rename_i hb
        rw [ih lines]
        have : decide (¬ trim_trailing_whitespace before = before) = false := by
          simp [← hb]
        rw [this]
        simp
      · rename_i hb
        have : decide (¬ trim_trailing_whitespace before = before) = true := by
          simp
          intro hx
          exact hb hx.symm
        rw [this]
        simp

/-- C5: a line number in the change set whose Python lookup
`lines[line_num-1]` raises `IndexError` is skipped: both checkers compute
the same result as if the failing line numbers had been removed from the
set, so a failing lookup contributes no failure and does not abort the
check of the file (out-of-bounds means outside Python list indexing,
consistent with C9 for index 0). -/
theorem C5_out_of_range_skipped (d : List Char) (changed : List (List Char))
    (nf dry add : Bool) :
    check_do_not_merge_in_file (some d) changed nf
      = dnmLoop (splitlinesKeep d)
          ((yield_changed_lines (lineNums (splitlinesKeep d) changed nf)).filter
            fun n : Nat => (pyGet (splitlinesKeep d) ((n : Int) - 1)).isSome)
    ∧ trimLoop dry (yield_changed_lines (lineNums (splitlinesKeep d) changed nf))
          (splitlinesKeep d)
      = trimLoop dry
          ((yield_changed_lines (lineNums (splitlinesKeep d) changed nf)).filter
            fun n : Nat => (pyGet (splitlinesKeep d) ((n : Int) - 1)).isSome)
          (splitlinesKeep d)
    ∧ (((yield_changed_lines (lineNums (splitlinesKeep d) changed nf)).all
          fun n : Nat => (pyGet (splitlinesKeep d) ((n : Int) - 1)).isNone) = true →
        check_do_not_merge_in_file (some d) changed nf = 0
        ∧ trim_trailing_whitespace_in_file (some d) changed nf dry add
            = ⟨0, splitlinesKeep d, false, [], false⟩) := by
  refine ⟨dnmLoop_filter _ _, trimLoop_filter dry _ _, fun hall => ?_⟩
  have hnil : (yield_changed_lines (lineNums (splitlinesKeep d) changed nf)).filter
      (fun n : Nat => (pyGet (splitlinesKeep d) ((n : Int) - 1)).isSome) = [] := by
    rw [List.filter_eq_nil_iff]
    intro n hn
    have := List.all_eq_true.mp hall n hn
    simp only [Option.isNone_iff_eq_none] at this
    simp [this]
  constructor
  · show dnmLoop (splitlinesKeep d)
        (yield_changed_lines (lineNums (splitlinesKeep d) changed nf)) = 0
    rw [dnmLoop_filter, hnil]
    rfl
  · have h1 : trimLoop dry (yield_changed_lines (lineNums (splitlinesKeep d) changed nf))
        (splitlinesKeep d) = (splitlinesKeep d, false, []) := by
      rw [trimLoop_filter, hnil]
      rfl
    show (⟨if (trimLoop dry (yield_changed_lines (lineNums (splitlinesKeep d) changed nf))
            (splitlinesKeep d)).2.2.isEmpty then 0 else 1,
          if (trimLoop dry (yield_changed_lines (lineNums (splitlinesKeep d) changed nf))
              (splitlinesKeep d)).2.1 then
            (trimLoop dry (yield_changed_lines (lineNums (splitlinesKeep d) changed nf))
              (splitlinesKeep d)).1
          else splitlinesKeep d,
          (trimLoop dry (yield_changed_lines (lineNums (splitlinesKeep d) changed nf))
            (splitlinesKeep d)).2.1,
          (trimLoop dry (yield_changed_lines (lineNums (splitlinesKeep d) changed nf))
            (splitlinesKeep d)).2.2,
          (trimLoop dry (yield_changed_lines (lineNums (splitlinesKeep d) changed nf))
            (splitlinesKeep d)).2.1 && add⟩ : TrimResult)
        = ⟨0, splitlinesKeep d, false, [], false⟩
    rw [h1]
    rfl

/-- C10: with `dry_run=False` the whitespace fixer always returns 0, even
when it rewrote the file; only a dry run can return the failure count 1,
and it does so exactly when some looked-up changed line has trailing
whitespace. -/
theorem C10_fix_mode_returns_zero :
    (∀ data changed nf add,
      (trim_trailing_whitespace_in_file data changed nf false add).retval = 0)
    ∧ (∀ (d : List Char) changed nf add,
        (trim_trailing_whitespace_in_file (some d) changed nf true add).retval
          = if ((yield_changed_lines (lineNums (splitlinesKeep d) changed nf)).any
                fun n : Nat =>
                  match pyGet (splitlinesKeep d) ((n : Int) - 1) with
                  | some l => decide (¬ trim_trailing_whitespace l = l)
                  | none => false) = true
            then 1 else 0) := by
  constructor
  · intro data changed nf add
    cases data with
    | none => rfl
    | some d =>
      rw [trim_trailing_whitespace_in_file]
      simp only [trimLoop_fix_ml]
      rfl
  · intro d changed nf add
    rw [trim_trailing_whitespace_in_file]
    simp only [trimLoop_dry_ml_isEmpty]
    cases hany : ((yield_changed_lines (lineNums (splitlinesKeep d) changed nf)).any
        fun n : Nat =>
          match pyGet (splitlinesKeep d) ((n : Int) - 1) with
          | some l => decide (¬ trim_trailing_whitespace l = l)
          | none => false) <;> simp [hany]

/-- Witness for C5 at a concrete file and an out-of-range change set. -/
theorem C5_out_of_range_skipped_witness :
    check_do_not_merge_in_file (some "do not merge\n".data) [['9']] false = 0
    ∧ trim_trailing_whitespace_in_file (some "a \n".data) [['9']] false true true
        = ⟨0, splitlinesKeep "a \n".data, false, [], false⟩ := by
  constructor
  · exact ((C5_out_of_range_skipped "do not merge\n".data [['9']] false true true).2.2
      (by decide)).1
  · exact ((C5_out_of_range_skipped "a \n".data [['9']] false true true).2.2
      (by decide)).2

theorem ne_nil_of_getLast?_eq_some {α : Type} {l : List α} {x : α}
    (h : l.getLast? = some x) : l ≠ [] := by
  intro he
  subst he
  simp at h

/-- C9: a pure-deletion hunk `@@ -1 +0,0 @@` parses to the anchor line 0;
when 0 is in the change set of a modified file both checkers evaluate
`lines[0-1] = lines[-1]`, Python indexing for the last line of the
non-empty file, so nothing is raised or skipped; if that last, unchanged
line violates the predicate it is flagged (do-not-merge) or rewritten in
place (whitespace fix), and the fixer still returns 0. -/
theorem C9_line_zero_reads_last_line (d l : List Char)
    (hl : (splitlinesKeep d).getLast? = some l)
    (hdnm : containsSub dnmPhrase (l.map toLowerChar) = true)
    (htrim : trim_trailing_whitespace l ≠ l) :
    parse_diff_header "@@ -1 +0,0 @@".data = some ['0']
    ∧ pyGet (splitlinesKeep d) ((0 : Int) - 1) = some l
    ∧ check_do_not_merge_in_file (some d) [['0']] false = 1
    ∧ (trim_trailing_whitespace_in_file (some d) [['0']] false false true).outLines
        = (splitlinesKeep d).dropLast ++ [trim_trailing_whitespace l]
    ∧ (trim_trailing_whitespace_in_file (some d) [['0']] false false true).retval = 0
    ∧ (trim_trailing_whitespace_in_file (some d) [['0']] false false true).modified_file
        = true := by
  have hne : splitlinesKeep d ≠ [] := ne_nil_of_getLast?_eq_some hl
  have hpg : pyGet (splitlinesKeep d) ((0 : Int) - 1) = some l :=
    (pyGet_neg_one _ hne).trans hl
  have hpg0 : pyGet (splitlinesKeep d) (((0 : Nat) : Int) - 1) = some l := by
    simpa using hpg
  have hy : yield_changed_lines (lineNums (splitlinesKeep d) [['0']] false) = [0] := by
    show yield_changed_lines [['0']] = [0]
    decide
  have hps : pySet (splitlinesKeep d) (((0 : Nat) : Int) - 1) (trim_trailing_whitespace l)
      = (splitlinesKeep d).dropLast ++ [trim_trailing_whitespace l] := by
    unfold pySet
    rw [if_neg (by simp)]
    have hab : (((0 : Nat) : Int) - 1).natAbs = 1 := by simp
    rw [hab]
    exact set_length_sub_one_eq _ _ hne
  have ht : trimLoop false
      (yield_changed_lines (lineNums (splitlinesKeep d) [['0']] false)) (splitlinesKeep d)
      = ((splitlinesKeep d).dropLast ++ [trim_trailing_whitespace l], true, []) := by
    rw [hy]
    simp only [trimLoop, hpg0]
    rw [if_neg (fun e => htrim e.symm)]
    simp only [Bool.false_eq_true, if_false]
    rw [hps]
  have hdnmres : check_do_not_merge_in_file (some d) [['0']] false = 1 := by
    show dnmLoop (splitlinesKeep d)
        (yield_changed_lines (lineNums (splitlinesKeep d) [['0']] false)) = 1
    rw [hy]
    simp only [dnmLoop, hpg0]
    rw [hdnm]
    rfl
  refine ⟨by decide, hpg, hdnmres, ?_, ?_, ?_⟩
  · show (if (trimLoop false
        (yield_changed_lines (lineNums (splitlinesKeep d) [['0']] false))
        (splitlinesKeep d)).2.1 then
          (trimLoop false (yield_changed_lines (lineNums (splitlinesKeep d) [['0']] false))
            (splitlinesKeep d)).1
        else splitlinesKeep d)
      = (splitlinesKeep d).dropLast ++ [trim_trailing_whitespace l]
    rw [ht]
    rfl
  · show (if (trimLoop false
        (yield_changed_lines (lineNums (splitlinesKeep d) [['0']] false))
        (splitlinesKeep d)).2.2.isEmpty then 0 else 1) = 0
    rw [ht]
    rfl
  · show (trimLoop false
        (yield_changed_lines (lineNums (splitlinesKeep d) [['0']] false))
        (splitlinesKeep d)).2.1 = true
    rw [ht]

/-- Witness for C9 at a two-line file whose unchanged last line both
contains the forbidden phrase and carries trailing whitespace. -/
theorem C9_line_zero_reads_last_line_witness :
    check_do_not_merge_in_file (some "ok\nDO NOT MERGE  \n".data) [['0']] false = 1
    ∧ (trim_trailing_whitespace_in_file (some "ok\nDO NOT MERGE  \n".data) [['0']]
        false false true).outLines = ["ok\n".data, "DO NOT MERGE\n".data] := by
  have h := C9_line_zero_reads_last_line "ok\nDO NOT MERGE  \n".data
    "DO NOT MERGE  \n".data (by decide) (by decide) (by decide)
  exact ⟨h.2.2.1, h.2.2.2.1.trans (by decide)⟩

/-- C2 counterexample: the change set produced by the pure-deletion hunk
`@@ -1 +0,0 @@` is the single line number 0; line 1 is not in it, yet the
fixer rewrites line 1 of a one-line file, and the do-not-merge check
flags a file whose only phrase-carrying line is outside the set. -/
theorem C2_counterexample :
    yield_changed_lines [['0']] = [0]
    ∧ ((1 : Nat) ∈ yield_changed_lines [['0']] → False)
    ∧ (trim_trailing_whitespace_in_file (some "a \n".data) [['0']] false false true).outLines
        = ["a\n".data]
    ∧ check_do_not_merge_in_file (some "do not merge\n".data) [['0']] false = 1 := by
  refine ⟨by decide, by decide, by decide, by decide⟩

/-- C2 (amended): provided every line number in the supplied change set
is at least 1 (which rules out the pure-deletion anchor 0 of C9), the
line-scoped checkers touch only lines of the set on a modified file: the
do-not-merge check returns 0 when no line of the set contains the phrase,
the whitespace pass leaves every line outside the set unchanged in both
modes, and a dry run reports only line numbers from the set. -/
theorem C2_amended_line_scope (d : List Char) (changed : List (List Char)) (dry add : Bool)
    (hpos : ∀ n : Nat, n ∈ yield_changed_lines changed → 1 ≤ n) :
    ((∀ n : Nat, n ∈ yield_changed_lines changed → ∀ l,
        pyGet (splitlinesKeep d) ((n : Int) - 1) = some l →
        containsSub dnmPhrase (l.map toLowerChar) = false) →
      check_do_not_merge_in_file (some d) changed false = 0)
    ∧ (∀ i : Nat, (i + 1) ∉ yield_changed_lines changed →
        (trim_trailing_whitespace_in_file (some d) changed false dry add).outLines.get? i
          = (splitlinesKeep d).get? i)
    ∧ (∀ s ∈ (trim_trailing_whitespace_in_file (some d) changed false dry add).modified_lines,
        ∃ n : Nat, n ∈ yield_changed_lines changed ∧ s = natRepr n) := by
  have hln : lineNums (splitlinesKeep d) changed false = changed := rfl
  refine ⟨?_, ?_, ?_⟩
  · intro h
    show dnmLoop (splitlinesKeep d)
        (yield_changed_lines (lineNums (splitlinesKeep d) changed false)) = 0
    rw [hln]
    exact dnmLoop_zero _ _ h
  · intro i hi
    show (if (trimLoop dry (yield_changed_lines (lineNums (splitlinesKeep d) changed false))
          (splitlinesKeep d)).2.1 then
        (trimLoop dry (yield_changed_lines (lineNums (splitlinesKeep d) changed false))
          (splitlinesKeep d)).1
      else splitlinesKeep d).get? i = (splitlinesKeep d).get? i
    rw [hln]
    split
    · exact trimLoop_preserve dry _ _ i hpos hi
    · rfl
  · intro s hs
    have hs2 : s ∈ (trimLoop dry
        (yield_changed_lines (lineNums (splitlinesKeep d) changed false))
        (splitlinesKeep d)).2.2 := hs
    rw [hln] at hs2
    obtain ⟨n, hn, he⟩ := trimLoop_ml_mem dry _ _ s hs2
    exact ⟨n, hn, he⟩

/-- Witness for C2 (amended) at a two-line file with change set 2: the
untouched first line keeps its trailing blank. -/
theorem C2_amended_line_scope_witness :
    (trim_trailing_whitespace_in_file (some "a \nb \n".data) [['2']]
        false true true).outLines.get? 0 = some "a \n".data := by
  have h := (C2_amended_line_scope "a \nb \n".data [['2']] true true (by decide)).2.1 0
    (by decide)
  exact h.trans (by decide)

theorem foldl_add_sum {α : Type} (g : α → Nat) : ∀ (l : List α) (init : Nat),
    l.foldl (fun acc x => acc + g x) init = init + (l.map g).sum := by
  intro l
  induction l with
  | nil =>
    intro init
    simp
  | cons a t ih =>
    intro init
    simp only [List.foldl_cons, List.map_cons, List.sum_cons, ih]
    omega

theorem eolLoop_le_one : ∀ fs, eolLoop fs ≤ 1 := by
  intro fs
  induction fs with
  | nil => exact Nat.zero_le 1
  | cons f rest ih =>
    cases f with
    | none => exact ih
    | some d =>
      simp only [eolLoop]
      split
      · exact ih
      · split
        · exact Nat.le_refl 1
        · exact ih

/-- C4 counterexample: two files both containing CRLF are two line-ending
violations, but `check_eol` stops at the first one and returns 1, so the
aggregate is not the arithmetic sum over all files and the second
violation is never reported. -/
theorem C4_counterexample :
    check_eol false none [some "a\r\n".data, some "b\r\n".data] = 1
    ∧ ([some "a\r\n".data, some "b\r\n".data].countP eolViolation) = 2 := by
  exact ⟨by decide, by decide⟩

/-- C4 (amended): the hook's return value — the process exit code — is
the arithmetic sum of the checks, and the do-not-merge and
trailing-whitespace checks sum their per-file failure counts without
stopping early; the line-ending check however stops at the first file
containing CRLF and contributes at most 1, so EOL violations beyond the
first are not reported. -/
theorem C4_amended_aggregation :
    (∀ (files : List FileIn) (nf : Bool),
      check_do_not_merge files nf
        = (files.map fun f => check_do_not_merge_in_file f.data f.changed nf).sum)
    ∧ (∀ (files : List FileIn) (nf dr : Bool),
      remove_trailing_white_space files nf dr
        = (files.map fun f =>
            (trim_trailing_whitespace_in_file f.data f.changed nf dr true).retval).sum)
    ∧ (∀ (w : Bool) (a : Option (List Char)) (fs : List (Option (List Char))),
        check_eol w a fs ≤ 1)
    ∧ (∀ (u : List Char) (M A : List FileIn),
        commit_hook_merge u M A
          = check_username u + check_do_not_merge M false + check_do_not_merge A true) := by
  refine ⟨?_, ?_, ?_, fun u M A => rfl⟩
  · intro files nf
    have := foldl_add_sum (fun f : FileIn => check_do_not_merge_in_file f.data f.changed nf)
      files 0
    simpa [check_do_not_merge] using this
  · intro files nf dr
    have := foldl_add_sum
      (fun f : FileIn => (trim_trailing_whitespace_in_file f.data f.changed nf dr true).retval)
      files 0
    simpa [remove_trailing_white_space] using this
  · intro w a fs
    rw [check_eol]
    split
    · split
      · exact Nat.zero_le 1
      · exact eolLoop_le_one fs
    · split
      · exact Nat.zero_le 1
      · exact eolLoop_le_one fs

theorem getLast?_ne_none {α : Type} {l : List α} (h : l ≠ []) :
    ∃ c, l.getLast? = some c := by
  cases hp : l.getLast? with
  | none =>
    cases l with
    | nil => exact absurd rfl h
    | cons a t => rw [List.getLast?_eq_getElem?] at hp; simp at hp
  | some c => exact ⟨c, rfl⟩

/-- C6 counterexample: the source compares the stem against the reserved
device names case-sensitively, so `CON.txt` passes `check_filename`
although the claim's case-insensitive rule rejects it. -/
theorem C6_counterexample :
    check_filename "CON.txt".data = some 0
    ∧ spec_filename_reject true "CON.txt".data = true :=
  ⟨by decide, by decide⟩

theorem ifChain5 (A B C D E : Prop) [Decidable A] [Decidable B] [Decidable C]
    [Decidable D] [Decidable E] :
    (if A then some 1 else if B then some 1 else if C then some 1 else
      if D then some 1 else if E then some 1 else some (0 : Nat))
      = some (if A ∨ B ∨ C ∨ D ∨ E then 1 else 0) := by
  split_ifs <;> tauto

set_option maxRecDepth 4000 in
/-- C6 (amended): for every non-empty path, `check_filename` returns 1
exactly when the path violates the legality rule with the reserved device
names compared case-sensitively (lowercase only, unlike the claim's
case-insensitive comparison), and 0 otherwise; a 208-character path
passes while a 209-character one fails. -/
theorem C6_amended_check_filename :
    (∀ p : List Char, p ≠ [] →
      check_filename p = some (if spec_filename_reject false p then 1 else 0))
    ∧ check_filename ("long/path/long/path/long/path/long/path/long/path/long/path/long/path/long/path/long/path/long/path/long/path/long/path/long/path/long/path/long/path/long/path/long/path/long/path/long/path/long/path/l208.txt".data) = some 0
    ∧ check_filename ("long/path/long/path/long/path/long/path/long/path/long/path/long/path/long/path/long/path/long/path/long/path/long/path/long/path/long/path/long/path/long/path/long/path/long/path/long/path/long/path/ll209.txt".data) = some 1 := by
  refine ⟨?_, by decide, by decide⟩
  intro p h
  have hm1 : pyGet p (-1) = p.getLast? := by
    have := pyGet_neg_one p h
    simpa using this
  obtain ⟨c, hc⟩ := getLast?_ne_none h
  rw [check_filename]
  simp only [hm1, hc]
  rw [ifChain5]
  congr 1
  refine if_congr ?_ rfl rfl
  rw [spec_filename_reject]
  simp only [hc]
  simp only [Bool.or_eq_true, decide_eq_true_eq]
  tauto

/-- Witness for C6 (amended) at the path `good/some.txt`. -/
theorem C6_amended_check_filename_witness :
    check_filename "good/some.txt".data = some 0 := by
  have h := C6_amended_check_filename.1 "good/some.txt".data (by decide)
  exact h.trans (by decide)

/-!
### Lemmas about the Jira ticket pattern
-/

theorem takeWhile_all (p : Char → Bool) : ∀ xs : List Char,
    (∀ c ∈ xs, p c = true) → xs.takeWhile p = xs := by
  intro xs
  induction xs with
  | nil => intro _; rfl
  | cons a t ih =>
    intro h
    rw [List.takeWhile_cons, if_pos (h a (by simp))]
    rw [ih fun c hc => h c (by simp [hc])]

theorem drop_takeWhile_length (p : Char → Bool) : ∀ l : List Char,
    l.drop (l.takeWhile p).length = l.dropWhile p := by
  intro l
  induction l with
  | nil => rfl
  | cons a t ih =>
    rw [List.takeWhile_cons, List.dropWhile_cons]
    split
    · simpa using ih
    · rfl

theorem jiraToken_ne_nil {t : List Char} (h : JiraToken t) : t ≠ [] := by
  obtain ⟨u, e, rfl, _, h2, _⟩ := h
  intro he
  cases u <;> simp_all

theorem digit_wordChar {c : Char} (h : c.isDigit = true) : pyWordChar c = true := by
  simp [pyWordChar, Char.isAlphanum, h]

theorem upper_wordChar {c : Char} (h : c.isUpper = true) : pyWordChar c = true := by
  have : c.isAlpha = true := by
    simp [Char.isAlpha, h]
  simp [pyWordChar, Char.isAlphanum, this]

theorem jiraMatchAt_iff (prev : Option Char) (s : List Char) :
    jiraMatchAt prev s = true ↔
      boundaryOK prev = true ∧ ∃ t suf, s = t ++ suf ∧ JiraToken t ∧
        boundaryOK suf.head? = true := by
  constructor
  · intro h
    rw [jiraMatchAt] at h
    simp only [Bool.and_eq_true, decide_eq_true_eq] at h
    obtain ⟨hb, h2⟩ := h
    refine ⟨hb, ?_⟩
    cases hd : s.drop (s.takeWhile Char.isUpper).length with
    | nil =>
      rw [hd] at h2
      simp at h2
    | cons c r2 =>
      rw [hd] at h2
      simp only [Bool.and_eq_true, decide_eq_true_eq] at h2
      obtain ⟨⟨hu2, hu8⟩, hc, ⟨h1e, h5e⟩, hbnd⟩ := h2
      refine ⟨s.takeWhile Char.isUpper ++ '-' :: r2.takeWhile Char.isDigit,
        r2.drop (r2.takeWhile Char.isDigit).length, ?_, ?_, ?_⟩
      · have hs : s.takeWhile Char.isUpper ++ s.drop (s.takeWhile Char.isUpper).length = s := by
          rw [drop_takeWhile_length]
          exact List.takeWhile_append_dropWhile _ _
        have hr : r2.takeWhile Char.isDigit ++ r2.drop (r2.takeWhile Char.isDigit).length = r2 := by
          rw [drop_takeWhile_length]
          exact List.takeWhile_append_dropWhile _ _
        subst hc
        rw [List.append_assoc, List.cons_append, hr, ← hd]
        exact hs.symm
      · refine ⟨s.takeWhile Char.isUpper, r2.takeWhile Char.isDigit, ?_, ?_, hu2, hu8, ?_, h1e, h5e⟩
        · rfl
        · intro x hx
          exact List.mem_takeWhile_imp hx
        · intro x hx
          exact List.mem_takeWhile_imp hx
      · exact hbnd
  · rintro ⟨hb, t, suf, rfl, ⟨u, e, rfl, hu, hu2, hu8, he, h1e, h5e⟩, hbnd⟩
    rw [jiraMatchAt]
    have hsufd : ∀ x, suf.head? = some x → x.isDigit = false := by
      intro x hx
      cases suf with
      | nil => simp at hx
      | cons y ys =>
        simp only [List.head?_cons, Option.some.injEq] at hx
        subst hx
        simp only [boundaryOK, List.head?_cons] at hbnd
        by_contra hdig
        rw [Bool.not_eq_false] at hdig
        rw [digit_wordChar hdig] at hbnd
        simp at hbnd
    have htw : ((u ++ '-' :: e) ++ suf).takeWhile Char.isUpper = u := by
      rw [List.append_assoc, List.cons_append]
      exact takeWhile_append_cons _ _ _ _ hu (by decide)
    have hdrop : ((u ++ '-' :: e) ++ suf).drop u.length = '-' :: (e ++ suf) := by
      rw [List.append_assoc, List.cons_append]
      exact List.drop_left u ('-' :: (e ++ suf))
    have htwd : (e ++ suf).takeWhile Char.isDigit = e := by
      cases suf with
      | nil =>
        rw [List.append_nil]
        exact takeWhile_all _ e he
      | cons y ys =>
        refine takeWhile_append_cons _ _ _ _ he ?_
        exact hsufd y (by simp)
    have hdrop2 : (e ++ suf).drop e.length = suf := List.drop_left e suf
    simp only [htw, hdrop, htwd, hdrop2]
    simp [hb, hu2, hu8, h1e, h5e, hbnd]

theorem lastOr_none (pre : List Char) : lastOr none pre = pre.getLast? := by
  rw [lastOr]
  cases pre.getLast? <;> rfl

theorem lastOr_cons (prev : Option Char) (c : Char) (pre : List Char) :
    lastOr prev (c :: pre) = lastOr (some c) pre := by
  cases pre with
  | nil => rfl
  | cons d pre2 =>
    rw [lastOr, lastOr, List.getLast?_cons_cons]
    cases h : (d :: pre2).getLast? with
    | some x => rfl
    | none =>
      exfalso
      obtain ⟨y, hy⟩ := getLast?_ne_none (show (d :: pre2) ≠ [] by simp)
      rw [h] at hy
      cases hy

theorem jiraSearchAux_iff : ∀ (s : List Char) (prev : Option Char),
    jiraSearchAux prev s = true ↔
      ∃ pre t suf, s = pre ++ t ++ suf ∧ JiraToken t ∧
        boundaryOK (lastOr prev pre) = true ∧ boundaryOK suf.head? = true := by
  intro s
  induction s with
  | nil =>
    intro prev
    simp only [jiraSearchAux]
    constructor
    · intro h
      cases h
    · rintro ⟨pre, t, suf, heq, htok, _, _⟩
      have h1 := List.append_eq_nil.mp heq.symm
      have h2 := List.append_eq_nil.mp h1.1
      exact absurd h2.2 (jiraToken_ne_nil htok)
  | cons c rest ih =>
    intro prev
    rw [jiraSearchAux]
    constructor
    · intro h
      rcases Bool.or_eq_true _ _ |>.mp h with hm | hrec
      · obtain ⟨hb, t, suf, heq, htok, hbnd⟩ := (jiraMatchAt_iff prev (c :: rest)).mp hm
        exact ⟨[], t, suf, by simpa using heq, htok, by simpa [lastOr] using hb, hbnd⟩
      · obtain ⟨pre, t, suf, heq, htok, hbl, hbr⟩ := (ih (some c)).mp hrec
        exact ⟨c :: pre, t, suf, by simp [heq], htok, by rwa [lastOr_cons], hbr⟩
    · rintro ⟨pre, t, suf, heq, htok, hbl, hbr⟩
      cases pre with
      | nil =>
        apply Bool.or_eq_true _ _ |>.mpr
        left
        apply (jiraMatchAt_iff prev (c :: rest)).mpr
        refine ⟨by simpa [lastOr] using hbl, t, suf, by simpa using heq, htok, hbr⟩
      | cons c2 pre2 =>
        apply Bool.or_eq_true _ _ |>.mpr
        right
        simp only [List.cons_append, List.cons.injEq] at heq
        obtain ⟨rfl, heq2⟩ := heq
        apply (ih (some c)).mpr
        exact ⟨pre2, t, suf, heq2, htok, by rwa [lastOr_cons] at hbl, hbr⟩

theorem jira_search_iff (m : List Char) :
    jira_id_pattern_search m = true ↔ ContainsJiraToken m := by
  rw [jira_id_pattern_search, jiraSearchAux_iff]
  constructor
  · rintro ⟨pre, t, suf, heq, htok, hbl, hbr⟩
    exact ⟨pre, t, suf, heq, htok, by rwa [lastOr_none] at hbl, hbr⟩
  · rintro ⟨pre, t, suf, heq, htok, hbl, hbr⟩
    exact ⟨pre, t, suf, heq, htok, by rwa [lastOr_none], hbr⟩

/-- C7 counterexample: the claim's bound, "non-alphanumeric characters",
accepts an underscore, but the pattern's `\b` does not (underscore is a
word character), so `_BLD-1234` contains a token the claim says matches
while `jira_id_pattern.search` finds nothing. -/
theorem C7_counterexample :
    jira_id_pattern_search "_BLD-1234".data = false
    ∧ spec_jira_cond "_BLD-1234".data = true :=
  ⟨by decide, by decide⟩

/-- C7 (amended): over ASCII messages, the Jira pattern finds a match
exactly when the message contains a token of 2-8 uppercase letters, a
hyphen, and 1-5 digits, bounded on both sides by non-word characters
(anything but letters, digits and underscore) or the ends of the message;
the claim's positive and negative examples all evaluate as stated. -/
theorem C7_amended_jira_pattern :
    (∀ m : List Char, (∀ c ∈ m, c.toNat ≤ 127) →
      (jira_id_pattern_search m = true ↔ ContainsJiraToken m))
    ∧ jira_id_pattern_search "BLD-1234".data = true
    ∧ jira_id_pattern_search "CQ-1".data = true
    ∧ jira_id_pattern_search "lower-1234".data = false
    ∧ jira_id_pattern_search "A-1234".data = false
    ∧ jira_id_pattern_search "BLD-123456".data = false
    ∧ jira_id_pattern_search "wordBLD-1234".data = false :=
  ⟨fun m _ => jira_search_iff m, by decide, by decide, by decide, by decide, by decide,
    by decide⟩

/-- Witness for C7 (amended) at the message `BLD-1234`. -/
theorem C7_amended_jira_pattern_witness : ContainsJiraToken "BLD-1234".data :=
  (C7_amended_jira_pattern.1 "BLD-1234".data (by decide)).mp (by decide)

/-- C8: `check_commit_msg` returns 0 for every message matching one of
the two auto-generated merge templates, whatever the staged files are —
no Jira and no large-file checking happens, so even a 200 MiB staged
file (over the 99 MiB hard limit, as the last two conjuncts contrast)
is accepted behind a template message; for any other message with an
empty file list it returns 1 exactly when the message contains neither
a Jira ticket token nor the literal `NO_JIRA`, and 0 otherwise;
`Trivial fix` yields 1 and `Trivial fix NO_JIRA` yields 0. -/
theorem C8_check_commit_msg :
    (∀ (m : List Char) (fileSizes : List Nat),
        mergeBranchTemplate m = true → check_commit_msg m fileSizes = 0)
    ∧ (∀ (m : List Char) (fileSizes : List Nat),
        mergePullTemplate m = true → check_commit_msg m fileSizes = 0)
    ∧ (∀ m : List Char, mergeBranchTemplate m = false → mergePullTemplate m = false →
        (check_commit_msg m [] = 1 ↔
          (containsSub NO_JIRA_MARKER m = false ∧ ¬ ContainsJiraToken m)))
    ∧ (∀ m : List Char, mergeBranchTemplate m = false → mergePullTemplate m = false →
        (check_commit_msg m [] = 0 ↔
          (containsSub NO_JIRA_MARKER m = true ∨ ContainsJiraToken m)))
    ∧ check_commit_msg "Trivial fix".data [] = 1
    ∧ check_commit_msg "Trivial fix NO_JIRA".data [] = 0
    ∧ check_commit_msg "Merge pull request #7 from feature".data [200 * 1048576] = 0
    ∧ check_commit_msg "ABC-1234 add data".data [200 * 1048576] = 1 := by
  have key : ∀ m : List Char, mergeBranchTemplate m = false → mergePullTemplate m = false →
      check_commit_msg m []
        = if (!containsSub NO_JIRA_MARKER m && !jira_id_pattern_search m) = true
          then 1 else 0 := by
    intro m h1 h2
    rw [check_commit_msg]
    simp only [h1, Bool.false_eq_true, if_false, h2]
    cases hc : (!containsSub NO_JIRA_MARKER m && !jira_id_pattern_search m) with
    | true => simp
    | false => simp [sizeLoop]
  have key2 : ∀ m : List Char,
      ((!containsSub NO_JIRA_MARKER m && !jira_id_pattern_search m) = true) ↔
        (containsSub NO_JIRA_MARKER m = false ∧ ¬ ContainsJiraToken m) := by
    intro m
    rw [Bool.and_eq_true, Bool.not_eq_true', Bool.not_eq_true']
    constructor
    · rintro ⟨ha, hb⟩
      refine ⟨ha, ?_⟩
      intro hc
      rw [(jira_search_iff m).mpr hc] at hb
      cases hb
    · rintro ⟨ha, hb⟩
      refine ⟨ha, ?_⟩
      cases hj : jira_id_pattern_search m with
      | false => rfl
      | true => exact absurd ((jira_search_iff m).mp hj) hb
  refine ⟨?_, ?_, ?_, ?_, ?_, ?_, ?_, ?_⟩
  · intro m fileSizes h
    rw [check_commit_msg]
    simp [h]
  · intro m fileSizes h
    rw [check_commit_msg]
    simp [h]
  · intro m h1 h2
    rw [key m h1 h2]
    constructor
    · intro he
      by_cases hb : (!containsSub NO_JIRA_MARKER m && !jira_id_pattern_search m) = true
      · exact (key2 m).mp hb
      · rw [if_neg hb] at he
        cases he
    · intro hc
      rw [if_pos ((key2 m).mpr hc)]
  · intro m h1 h2
    rw [key m h1 h2]
    constructor
    · intro he
      by_cases hb : (!containsSub NO_JIRA_MARKER m && !jira_id_pattern_search m) = true
      · rw [if_pos hb] at he
        cases he
      · rcases Classical.em (ContainsJiraToken m) with hC | hC
        · right
          exact hC
        · left
          cases hv : containsSub NO_JIRA_MARKER m with
          | true => rfl
          | false => exact absurd ((key2 m).mpr ⟨hv, hC⟩) hb
    · intro hc
      rw [if_neg]
      intro hb
      obtain ⟨ha, hnb⟩ := (key2 m).mp hb
      rcases hc with hx | hx
      · rw [hx] at ha
        cases ha
      · exact hnb hx
  · rw [key "Trivial fix".data (by decide) (by decide)]
    decide
  · rw [key "Trivial fix NO_JIRA".data (by decide) (by decide)]
    decide
  · decide
  · decide

/-- Witness for C8 at the auto-generated message
`Merge pull request 1 from patch-1` (with the number sign), staging a
200 MiB file: the hard size limit is not checked. -/
theorem C8_check_commit_msg_witness :
    check_commit_msg "Merge pull request #1 from patch-1".data [200 * 1048576] = 0 :=
  C8_check_commit_msg.2.1 "Merge pull request #1 from patch-1".data [200 * 1048576]
    (by decide)

end Githooks
